import Mathlib

/-
Verification of `torch/csrc/distributed/rpc/agent_utils.cpp`.

The file shallowly embeds the five functions of the source file
(`collectNames`, `splitString`, `collectCurrentNames`, `getNextKeyIds`,
`syncCallCount`) over an explicit model of the external c10d key-value
store, and proves the spec's claims about them.

Conventions:
* `std::vector<uint8_t>` values are byte strings; all values handled by this
  code are ASCII, so they are modelled as `String`.
* `worker_id_t` (`int16_t`) ids are modelled as `Int`; the one place the
  source narrows a wider `int` into `worker_id_t` (the `emplace` on line 112)
  is modelled explicitly by `toWorkerId` (reduction mod 2^16 into
  [-2^15, 2^15)).
* The store itself is not part of the repository (it is the external
  collaborator of spec §2/§6), so it is modelled from the spec's interface
  table.
-/

namespace AgentUtils

/-- Worker ids (`worker_id_t` in the source). -/
abbrev WorkerId := Int

/-! ## Decimal rendering (`c10::to_string`, `fmt::format("{}", n)`)

The digit list is computed with explicit fuel (structural recursion) so that
it evaluates inside the kernel; `natDigits_eq_digits` identifies it with
`Nat.digits 10`. -/

/-- Little-endian base-10 digits of `n`, with fuel. -/
def natDigitsAux : Nat → Nat → List Nat
  | _, 0 => []
  | 0, _ + 1 => []
  | fuel + 1, n + 1 => ((n + 1) % 10) :: natDigitsAux fuel ((n + 1) / 10)

/-- Little-endian base-10 digits of `n`. -/
def natDigits (n : Nat) : List Nat := natDigitsAux n n

/-- The ASCII character of a decimal digit. -/
def digitChar10 (d : Nat) : Char := Char.ofNat (48 + d)

/-- ASCII characters of the decimal rendering of a natural number, most
significant digit first (`std::to_string` on a non-negative value). -/
def natChars (n : Nat) : List Char :=
  if n = 0 then [digitChar10 0] else ((natDigits n).map digitChar10).reverse

def natToString (n : Nat) : String := String.mk (natChars n)

/-- ASCII characters of the decimal rendering of an `Int`
(`c10::to_string` / `fmt::format` on a possibly negative value). -/
def intChars (n : Int) : List Char :=
  if n < 0 then Char.ofNat 45 :: natChars n.natAbs else natChars n.natAbs

def intToString (n : Int) : String := String.mk (intChars n)

/-- Decode a list of ASCII digit characters (most significant first). -/
def charsToNat (cs : List Char) : Nat :=
  Nat.ofDigits 10 ((cs.map (fun c => c.toNat - 48)).reverse)

/-! ## `std::stoi`

Model of `std::stoi` as used on lines 100 and 168: an optional leading minus
sign followed by a maximal run of decimal digits (at least one digit
required); trailing characters are ignored.  Leading whitespace and a
leading `'+'` are accepted by the real `std::stoi` but are never produced by
this protocol, so they are not modelled.  `none` models the
`std::invalid_argument` exception. -/

def isDigitChar (c : Char) : Bool := 48 ≤ c.toNat && c.toNat ≤ 57

def parseNatRun (cs : List Char) : Option Nat :=
  if (cs.takeWhile isDigitChar).isEmpty then none
  else some (charsToNat (cs.takeWhile isDigitChar))

def stoiChars : List Char → Option Int
  | [] => none
  | c :: rest =>
    if c = Char.ofNat 45 then (parseNatRun rest).map (fun m => -(m : Int))
    else (parseNatRun (c :: rest)).map (fun m => (m : Int))

def strToInt (s : String) : Option Int := stoiChars s.data

/-! ## The external store

Modelled from the spec: the store is the external collaborator of §2/§6
("Store contract — external collaborator, not implemented here") with the
capability set of the table in §6: `set` (unconditional overwrite), `get`
(blocking read, modelled as `Option` where `none` means the call would
block), `add` (atomic numeric accumulate returning the new total, an absent
key counting as 0, the total stored in decimal), `compareAndSet` (returns
the value actually stored after the attempt), `check` (non-blocking
existence test) and `wait` (blocks until all keys exist).  Values are byte
sequences, modelled as `String` (all values used by this code are ASCII).
The `PrefixStore` wrapper prepends a fixed prefix to every key — a constant
injection on key strings — and is omitted. -/

structure Store where
  data : String → Option String

def Store.setK (st : Store) (k v : String) : Store :=
  ⟨fun q => if q = k then some v else st.data q⟩

def Store.getK (st : Store) (k : String) : Option String := st.data k

/-- Modelled from the spec: `add(key, delta)` — atomic numeric accumulate.
The stored decimal value (0 when absent) plus `delta` is stored back and
returned. -/
def Store.addK (st : Store) (k : String) (d : Int) : Store × Int :=
  let cur : Int :=
    match st.data k with
    | none => 0
    | some s => (strToInt s).getD 0
  let tot := cur + d
  (st.setK k (intToString tot), tot)

/-- Modelled from the spec: `compareAndSet(key, expected, newValue)` returns
the value actually stored after the attempt (equal to `newValue` iff the CAS
succeeded); an absent key matches an empty `expected`. -/
def Store.compareSetK (st : Store) (k expected desired : String) : Store × String :=
  match st.data k with
  | none => if expected = "" then (st.setK k desired, desired) else (st, expected)
  | some cur => if cur = expected then (st.setK k desired, desired) else (st, cur)

/-- Modelled from the spec: `check(keys)` — non-blocking existence test. -/
def Store.checkK (st : Store) (ks : List String) : Bool :=
  ks.all (fun k => (st.data k).isSome)

/-- The operations a call issues against the store, in order.  Recording
them lets the frame claims speak about exactly which keys are read or
mutated. -/
inductive StoreOp
  | setOp (k v : String)
  | getOp (k : String)
  | addOp (k : String) (d : Int)
  | compareSetOp (k expected desired : String)
  | checkOp (ks : List String)
  | waitOp (ks : List String)
deriving DecidableEq

/-- The errors a call can surface.  `nameCollision` and `idCollision` are
the two `TORCH_CHECK` failures of the source; `outOfRange` models
`std::vector::at` past the end, `stoiFailure` models `std::stoi` on a
non-numeric string, and `blocked k` marks a read that would block forever
waiting on `k` (the store-side wait semantics of `get`/`wait`). -/
inductive RegError
  | nameCollision (existingId newId : WorkerId) (sharedName : String)
  | idCollision (id : WorkerId) (occupant rejected : String)
  | blocked (key : String)
  | outOfRange
  | stoiFailure
deriving DecidableEq

/-! ## `collectNames` (fixed-size registry, lines 8–42)

The name table `std::unordered_map<std::string, worker_id_t>` is modelled
as an association list with pairwise-distinct keys (the code checks before
every `emplace`); equality of tables is equality up to permutation.  `get`
on a peer's key blocks until that peer has published; a store where the key
is absent therefore yields the `blocked` outcome. -/

abbrev NameTable := List (String × WorkerId)

/-- The key under which a worker publishes its name:
`c10::to_string(workerId)` (lines 16 and 25). -/
def workerKey (id : WorkerId) : String := intToString id

/-- The loop of lines 21–40: for every id other than `selfId`, read that
worker's name, fail if it duplicates a name already in the table, and insert
it.  Returns the issued store operations and the outcome. -/
def collectNamesLoop (st : Store) (selfId : WorkerId) :
    List WorkerId → NameTable → List StoreOp × Except RegError NameTable
  | [], acc => ([], .ok acc)
  | w :: rest, acc =>
    if w = selfId then collectNamesLoop st selfId rest acc
    else
      match st.getK (workerKey w) with
      | none => ([.getOp (workerKey w)], .error (.blocked (workerKey w)))
      | some workerName =>
        match List.lookup workerName acc with
        | some existingId =>
          ([.getOp (workerKey w)], .error (.nameCollision existingId w workerName))
        | none =>
          let r := collectNamesLoop st selfId rest (acc ++ [(workerName, w)])
          (.getOp (workerKey w) :: r.1, r.2)

/-- Function `collectNames` (lines 8–42): publish `selfName` under the own id key,
then collect every other worker's name.  `worldSize` is non-negative in
every call (it is a process-group size), so it is a `Nat`; the loop ids are
`worker_id_t` values `0, 1, …, worldSize-1`. -/
def collectNames (st : Store) (selfId : WorkerId) (selfName : String) (worldSize : Nat) :
    List StoreOp × Except RegError NameTable :=
  let st1 := st.setK (workerKey selfId) selfName
  let r := collectNamesLoop st1 selfId ((List.range worldSize).map Int.ofNat)
    [(selfName, selfId)]
  (.setOp (workerKey selfId) selfName :: r.1, r.2)

/-- Store operations that mutate the store. -/
def isWriteOp : StoreOp → Bool
  | .setOp _ _ => true
  | .addOp _ _ => true
  | .compareSetOp _ _ _ => true
  | _ => false

/-- Concrete store for the spec's example: workers `(0,"a") (1,"b") (2,"c")`
have published their names. -/
def exampleStore : Store :=
  ⟨fun q => if q = "0" then some "a" else if q = "1" then some "b"
    else if q = "2" then some "c" else none⟩

/-- The example's name assignment. -/
def exampleNames : Nat → String := fun i => if i = 0 then "a" else if i = 1 then "b" else "c"

/-- A store in which workers 0 and 1 both published the name "a". -/
def collisionStore : Store :=
  ⟨fun q => if q = "0" then some "a" else if q = "1" then some "a"
    else if q = "2" then some "c" else none⟩

/-- The colliding name assignment. -/
def collisionNames : Nat → String := fun i => if i = 0 then "a" else if i = 1 then "a" else "c"

/-! ## `splitString` (lines 44–57)

`std::string::find(delim, start)` / `substr` recursion.  `findSub` returns
the first index at which `delim` occurs as a substring.  The loop is written
with explicit fuel so it evaluates in the kernel; one recursion step
consumes at least one character whenever `delim` is non-empty, so
`s.length + 1` units of fuel always suffice (`splitChars_unfold`).  On an
empty delimiter the C++ loop never terminates; this code only ever splits
on `","` and `"-"`, and the model returns `[s]` in that (unreachable)
case. -/

def findSub (d : List Char) : List Char → Option Nat
  | [] => if d.isPrefixOf ([] : List Char) then some 0 else none
  | c :: t =>
    if d.isPrefixOf (c :: t) then some 0
    else (findSub d t).map (fun i => i + 1)

def splitGoAux (d : List Char) : Nat → List Char → List (List Char)
  | 0, s => [s]
  | fuel + 1, s =>
    match findSub d s with
    | none => [s]
    | some e => s.take e :: splitGoAux d fuel (s.drop (e + d.length))

/-- The token list produced by the `while` loop of lines 48–55. -/
def splitChars (d s : List Char) : List (List Char) := splitGoAux d (s.length + 1) s

/-- Function `splitString(s, delim)` (lines 44–57). -/
def splitString (s delim : String) : List String :=
  if delim.data.isEmpty then [s]
  else (splitChars delim.data s.data).map String.mk

/-- Join parts with a single-character delimiter (the inverse image of the
split). -/
def joinWith (c : Char) : List (List Char) → List Char
  | [] => []
  | [p] => p
  | p :: q :: rest => p ++ c :: joinWith c (q :: rest)

/-! ## `collectCurrentNames` (dynamic-size registry, lines 59–125) -/

/-- The implicit `int → worker_id_t` (`int16_t`) narrowing at the `emplace`
on line 112: reduction mod 2^16 into `[-2^15, 2^15)`. -/
def toWorkerId (n : Int) : Int := (n + 2 ^ 15) % 2 ^ 16 - 2 ^ 15

/-- The manifest key (line 86). -/
def allWorkerInfosKey : String := "AllWorkerInfos"

/-- One manifest record: `fmt::format("{}-{}", selfName, selfId)`
(line 117). -/
def workerRecord (name : String) (id : Int) : String :=
  name ++ "-" ++ intToString id

/-- Appending a record to a non-empty manifest:
`fmt::format("{},{}-{}", allWorkerInfos, selfName, selfId)` (line 114). -/
def appendWorkerRecord (cur : String) (name : String) (id : Int) : String :=
  cur ++ "," ++ workerRecord name id

/-- The manifest text obtained when the given workers join in order, each
writing the manifest back as on lines 114/117: the first worker starts the
manifest, every later worker appends its record after a comma. -/
def serializeManifest : List (String × Int) → String
  | [] => ""
  | p :: ps => ps.foldl (fun acc q => appendWorkerRecord acc q.1 q.2) (workerRecord p.1 p.2)

/-- Parsing one manifest record (lines 98–100): split on `"-"`, take
field 0 as the name and `std::stoi` of field 1 as the id.  `outOfRange`
models `std::vector::at` past the end. -/
def parseRecord (r : String) : Except RegError (String × Int) :=
  match (splitString r "-").head? with
  | none => .error .outOfRange
  | some name =>
    match (splitString r "-")[1]? with
    | none => .error .outOfRange
    | some idStr =>
      match strToInt idStr with
      | none => .error .stoiFailure
      | some id => .ok (name, id)

/-- Parsing a whole manifest: split on `","` and parse every record, in
order (the loop of lines 97–113 without the name-table bookkeeping). -/
def parseManifest (m : String) : Except RegError (List (String × Int)) :=
  (splitString m ",").mapM parseRecord

/-- The manifest loop of lines 97–113: parse each record, fail on a
duplicated name, insert `(name, (worker_id_t)id)` otherwise. -/
def collectCurrentLoop : List String → NameTable → Except RegError NameTable
  | [], acc => .ok acc
  | r :: rest, acc =>
    match parseRecord r with
    | .error e => .error e
    | .ok (workerName, parsedId) =>
      match List.lookup workerName acc with
      | some existingId => .error (.nameCollision existingId parsedId workerName)
      | none => collectCurrentLoop rest (acc ++ [(workerName, toWorkerId parsedId)])

/-- Function `collectCurrentNames` (lines 59–125): atomically claim the own id key
via compare-and-set (empty expected value), re-publish the name, read and
extend the manifest if it exists or start a fresh one, and return the
parsed table. -/
def collectCurrentNames (st : Store) (selfId : WorkerId) (selfName : String) :
    List StoreOp × Except RegError NameTable :=
  let key := workerKey selfId
  let cs := st.compareSetK key "" selfName
  if cs.2 = selfName then
    let st1 := cs.1.setK key selfName
    if st1.checkK [allWorkerInfosKey] then
      match st1.getK allWorkerInfosKey with
      | none =>
        ([.compareSetOp key "" selfName, .setOp key selfName,
          .checkOp [allWorkerInfosKey], .getOp allWorkerInfosKey],
         .error (.blocked allWorkerInfosKey))
      | some m =>
        match collectCurrentLoop (splitString m ",") [(selfName, selfId)] with
        | .error e =>
          ([.compareSetOp key "" selfName, .setOp key selfName,
            .checkOp [allWorkerInfosKey], .getOp allWorkerInfosKey], .error e)
        | .ok table =>
          ([.compareSetOp key "" selfName, .setOp key selfName,
            .checkOp [allWorkerInfosKey], .getOp allWorkerInfosKey,
            .setOp allWorkerInfosKey (appendWorkerRecord m selfName selfId)],
           .ok table)
    else
      ([.compareSetOp key "" selfName, .setOp key selfName, .checkOp [allWorkerInfosKey],
        .setOp allWorkerInfosKey (workerRecord selfName selfId)],
       .ok [(selfName, selfId)])
  else
    ([.compareSetOp key "" selfName], .error (.idCollision selfId cs.2 selfName))

/-! ### Manifest round trip -/

/-- The characters of one serialized record. -/
def recordChars (p : String × Int) : List Char := (workerRecord p.1 p.2).data

/-! ### Facts about `collectCurrentNames` -/

def isCompareSetOp : StoreOp → Bool
  | .compareSetOp _ _ _ => true
  | _ => false

/-- A store in which workers 0 ("a") and 1 ("b") have registered
dynamically: both id keys are claimed and the manifest holds both
records. -/
def dynamicStore : Store :=
  ⟨fun q => if q = "AllWorkerInfos" then some "a-0,b-1"
    else if q = "0" then some "a" else if q = "1" then some "b" else none⟩

/-- The fixed-variant table of the example configuration. -/
def exampleTable : NameTable := [("a", 0), ("b", 1), ("c", 2)]

/-- The dynamic-variant table obtained by worker 2 ("c") joining
`dynamicStore`. -/
def dynamicTable : NameTable := [("c", 2), ("a", 0), ("b", 1)]

/-! ## The barrier (`getNextKeyIds`, `syncCallCount`, lines 127–171) -/

def storeKeyBarrierId : String := "_ID_"
def storeKeyProcessCount : String := "PROCESS_COUNT"
def storeKeyActiveCallCount : String := "ACTIVE_CALLS"
def storeKeyReady : String := "READY"

/-- Key format `fmt::format("{}{}{}", storeKeyProcessCount, storeKeyBarrierId, barrierId)`. -/
def processCountKey (e : Nat) : String :=
  storeKeyProcessCount ++ storeKeyBarrierId ++ natToString e

def activeCallCountKey (e : Nat) : String :=
  storeKeyActiveCallCount ++ storeKeyBarrierId ++ natToString e

def readyKey (e : Nat) : String :=
  storeKeyReady ++ storeKeyBarrierId ++ natToString e

/-- Function `getNextKeyIds` (lines 133–142).  The process-local static atomic
counter `barrierId` is threaded explicitly: the call increments it and
derives the three keys of the new epoch. -/
def getNextKeyIds (barrierId : Nat) : Nat × String × String × String :=
  (barrierId + 1, processCountKey (barrierId + 1),
   activeCallCountKey (barrierId + 1), readyKey (barrierId + 1))

/-- Function `syncCallCount` (lines 147–171), for one process interacting with the
store: derive the next epoch's keys, add `activeCalls` to the
active-call-count key, add 1 to the process-count key, set the ready marker
when the returned arrival count equals `worldSize`, wait on the ready key
(`blocked` when nobody ever sets it), and return the re-read call count.
Returns the new value of the local epoch counter, the issued operations, and
the outcome. -/
def syncCallCount (st : Store) (barrierId : Nat) (worldSize : Int) (activeCalls : Int) :
    Nat × List StoreOp × Except RegError Int :=
  let ids := getNextKeyIds barrierId
  let pck := ids.2.1
  let ack := ids.2.2.1
  let rk := ids.2.2.2
  let a1 := st.addK ack activeCalls
  let a2 := a1.1.addK pck 1
  let st2 := if a2.2 = worldSize then a2.1.setK rk "" else a2.1
  let pre : List StoreOp := [.addOp ack activeCalls, .addOp pck 1]
    ++ (if a2.2 = worldSize then [.setOp rk ""] else [])
  if (st2.data rk).isSome then
    match st2.getK ack with
    | none => (ids.1, pre ++ [.waitOp [rk], .getOp ack], .error (.blocked ack))
    | some s =>
      match strToInt s with
      | none => (ids.1, pre ++ [.waitOp [rk], .getOp ack], .error .stoiFailure)
      | some v => (ids.1, pre ++ [.waitOp [rk], .getOp ack], .ok v)
  else
    (ids.1, pre ++ [.waitOp [rk]], .error (.blocked rk))

/-- The empty store. -/
def emptyStore : Store := ⟨fun _ => none⟩

/-! ## The interleaved barrier system (C1)

`N` workers run `syncCallCount(worldSize = N, activeCalls = calls i)`
concurrently against one shared store, all on the same matching epoch `e`
(their process-local counters agree, per the external ordering contract of
spec §3).  Each worker's program counter walks through the statements of
lines 155–170; every store round-trip of the source is one atomic step of
the relation, so `BStep` interleavings cover all schedules the linearizable
store admits. -/

/-- One worker's program counter through `syncCallCount`:
`wInit` → (line 155 add) → `wAdded` → (line 156 add, returning `t`) →
`wCounted t` → (line 159/160 conditional set) → `wWaiting` → (line 164
wait) → `wPassed` → (lines 167–170 get and return `r`) → `wDone r`. -/
inductive WStatus
  | wInit
  | wAdded
  | wCounted (t : Int)
  | wWaiting
  | wPassed
  | wDone (r : Int)
deriving DecidableEq

/-- Global configuration: the shared store plus each worker's status. -/
structure BarrierConfig (N : Nat) where
  store : Store
  ws : Fin N → WStatus

/-- Has this worker started (performed its first add)? -/
def startedB : WStatus → Bool
  | .wInit => false
  | _ => true

/-- Has this worker fully called the epoch (performed both adds)? -/
def arrived : WStatus → Bool
  | .wInit => false
  | .wAdded => false
  | _ => true

/-- One atomic step of some worker `i`, mirroring lines 155–170. -/
inductive BStep (N e : Nat) (calls : Fin N → Int) :
    BarrierConfig N → BarrierConfig N → Prop
  | addCalls (c : BarrierConfig N) (i : Fin N) (h : c.ws i = .wInit) :
      BStep N e calls c
        ⟨(c.store.addK (activeCallCountKey e) (calls i)).1,
         Function.update c.ws i .wAdded⟩
  | addProc (c : BarrierConfig N) (i : Fin N) (h : c.ws i = .wAdded) :
      BStep N e calls c
        ⟨(c.store.addK (processCountKey e) 1).1,
         Function.update c.ws i (.wCounted (c.store.addK (processCountKey e) 1).2)⟩
  | setReady (c : BarrierConfig N) (i : Fin N) (t : Int) (h : c.ws i = .wCounted t)
      (ht : t = (N : Int)) :
      BStep N e calls c
        ⟨c.store.setK (readyKey e) "", Function.update c.ws i .wWaiting⟩
  | skipReady (c : BarrierConfig N) (i : Fin N) (t : Int) (h : c.ws i = .wCounted t)
      (ht : t ≠ (N : Int)) :
      BStep N e calls c ⟨c.store, Function.update c.ws i .wWaiting⟩
  | passWait (c : BarrierConfig N) (i : Fin N) (h : c.ws i = .wWaiting)
      (hr : (c.store.data (readyKey e)).isSome = true) :
      BStep N e calls c ⟨c.store, Function.update c.ws i .wPassed⟩
  | doGet (c : BarrierConfig N) (i : Fin N) (s : String) (v : Int)
      (h : c.ws i = .wPassed)
      (hs : c.store.data (activeCallCountKey e) = some s)
      (hv : strToInt s = some v) :
      BStep N e calls c ⟨c.store, Function.update c.ws i (.wDone v)⟩

/-- Initial configuration: nobody has called yet and the fresh epoch's three
keys are unused (guaranteed across invocations by C7's key freshness). -/
def BInit (N e : Nat) (c : BarrierConfig N) : Prop :=
  (∀ i, c.ws i = .wInit)
  ∧ c.store.data (activeCallCountKey e) = none
  ∧ c.store.data (processCountKey e) = none
  ∧ c.store.data (readyKey e) = none

/-- Workers that have performed the line-155 add. -/
def addedSet (N : Nat) (c : BarrierConfig N) : Finset (Fin N) :=
  Finset.univ.filter (fun i => startedB (c.ws i) = true)

/-- Workers that have performed the line-156 add. -/
def countedSet (N : Nat) (c : BarrierConfig N) : Finset (Fin N) :=
  Finset.univ.filter (fun i => arrived (c.ws i) = true)

/-- The inductive invariant of the barrier system. -/
structure BInv (N e : Nat) (calls : Fin N → Int) (c : BarrierConfig N) : Prop where
  ack : c.store.data (activeCallCountKey e)
    = if addedSet N c = ∅ then none
      else some (intToString (∑ i ∈ addedSet N c, calls i))
  pck : c.store.data (processCountKey e)
    = if countedSet N c = ∅ then none
      else some (intToString ((countedSet N c).card : Int))
  counted_le : ∀ i t, c.ws i = .wCounted t → t ≤ ((countedSet N c).card : Int)
  ready_all : (c.store.data (readyKey e)).isSome = true → countedSet N c = Finset.univ
  passed_ready : ∀ i, c.ws i = .wPassed → (c.store.data (readyKey e)).isSome = true
  done_val : ∀ i r, c.ws i = .wDone r → r = ∑ j : Fin N, calls j
  done_ready : ∀ i r, c.ws i = .wDone r → (c.store.data (readyKey e)).isSome = true

/-! Witness execution for C1: a single worker (`N = 1`) contributing 7. -/

def witCalls : Fin 1 → Int := fun _ => 7

def witC0 : BarrierConfig 1 := ⟨emptyStore, fun _ => .wInit⟩

def witC1b : BarrierConfig 1 :=
  ⟨(witC0.store.addK (activeCallCountKey 1) (witCalls 0)).1,
   Function.update witC0.ws 0 .wAdded⟩

def witC2b : BarrierConfig 1 :=
  ⟨(witC1b.store.addK (processCountKey 1) 1).1,
   Function.update witC1b.ws 0 (.wCounted (witC1b.store.addK (processCountKey 1) 1).2)⟩

def witC3b : BarrierConfig 1 :=
  ⟨witC2b.store.setK (readyKey 1) "", Function.update witC2b.ws 0 .wWaiting⟩

def witC4b : BarrierConfig 1 :=
  ⟨witC3b.store, Function.update witC3b.ws 0 .wPassed⟩

def witC5b : BarrierConfig 1 :=
  ⟨witC4b.store, Function.update witC4b.ws 0 (.wDone 7)⟩

/-! ## Theorems -/
theorem natDigitsAux_eq_digits (fuel n : Nat) (h : n ≤ fuel) :
    natDigitsAux fuel n = Nat.digits 10 n := by
  induction fuel generalizing n with
  | zero =>
    interval_cases n
    simp [natDigitsAux]
  | succ fuel ih =>
    cases n with
    | zero => simp [natDigitsAux]
    | succ m =>
      rw [natDigitsAux, ih ((m + 1) / 10) (by omega),
        Nat.digits_def' (b := 10) (by norm_num) (Nat.succ_pos m)]

theorem natDigits_eq_digits (n : Nat) : natDigits n = Nat.digits 10 n :=
  natDigitsAux_eq_digits n n le_rfl

theorem natDigits_lt (n d : Nat) (hd : d ∈ natDigits n) : d < 10 := by
  rw [natDigits_eq_digits] at hd
  exact Nat.digits_lt_base (by norm_num) hd

theorem ofDigits_natDigits (n : Nat) : Nat.ofDigits 10 (natDigits n) = n := by
  rw [natDigits_eq_digits]
  exact_mod_cast Nat.ofDigits_digits 10 n

theorem natDigits_ne_nil (n : Nat) (h : n ≠ 0) : natDigits n ≠ [] := by
  rw [natDigits_eq_digits]
  simpa [Nat.digits_ne_nil_iff_ne_zero] using h

theorem digit_toNat (d : Nat) (hd : d < 10) : (digitChar10 d).toNat = 48 + d := by
  interval_cases d <;> decide

theorem charsToNat_natChars (n : Nat) : charsToNat (natChars n) = n := by
  unfold natChars
  by_cases h : n = 0
  · simp [h, charsToNat]
    decide
  · simp only [h, if_false]
    unfold charsToNat
    rw [List.map_reverse, List.reverse_reverse, List.map_map]
    have hmap : (natDigits n).map ((fun c => c.toNat - 48) ∘ digitChar10) = natDigits n := by
      have h2 : (natDigits n).map ((fun c => c.toNat - 48) ∘ digitChar10)
          = (natDigits n).map id := by
        apply List.map_congr_left
        intro d hd
        have := natDigits_lt n d hd
        simp [Function.comp, digit_toNat d this]
      rw [h2, List.map_id]
    rw [hmap, ofDigits_natDigits]

theorem natChars_ne_nil (n : Nat) : natChars n ≠ [] := by
  unfold natChars
  by_cases h : n = 0
  · simp [h]
  · simp only [h, if_false]
    simp [natDigits_ne_nil n h]

theorem natChars_isDigit (n : Nat) (c : Char) (hc : c ∈ natChars n) :
    48 ≤ c.toNat ∧ c.toNat ≤ 57 := by
  unfold natChars at hc
  by_cases h : n = 0
  · simp [h] at hc
    subst hc
    decide
  · simp only [h, if_false, List.mem_reverse, List.mem_map] at hc
    obtain ⟨d, hd, rfl⟩ := hc
    have := natDigits_lt n d hd
    rw [digit_toNat d this]
    omega

theorem natChars_injective (a b : Nat) (h : natChars a = natChars b) : a = b := by
  have := charsToNat_natChars a
  rw [h, charsToNat_natChars] at this
  omega

theorem natChars_ne_minus (n : Nat) (c : Char) (hc : c ∈ natChars n) :
    c ≠ Char.ofNat 45 := by
  intro h
  have := natChars_isDigit n c hc
  rw [h] at this
  revert this
  decide

theorem intChars_injective (a b : Int) (h : intChars a = intChars b) : a = b := by
  unfold intChars at h
  by_cases ha : a < 0 <;> by_cases hb : b < 0 <;> simp only [ha, hb, if_true, if_false] at h
  · rw [List.cons.injEq] at h
    have := natChars_injective a.natAbs b.natAbs h.2
    omega
  · exfalso
    have hm : Char.ofNat 45 ∈ natChars b.natAbs := by
      rw [← h]
      exact List.mem_cons_self _ _
    exact natChars_ne_minus b.natAbs _ hm rfl
  · exfalso
    have hm : Char.ofNat 45 ∈ natChars a.natAbs := by
      rw [h]
      exact List.mem_cons_self _ _
    exact natChars_ne_minus a.natAbs _ hm rfl
  · have := natChars_injective a.natAbs b.natAbs h
    omega

theorem intToString_injective (a b : Int) (h : intToString a = intToString b) : a = b :=
  intChars_injective a b (congrArg String.data h)

theorem takeWhile_isDigit_natChars (n : Nat) :
    (natChars n).takeWhile isDigitChar = natChars n := by
  rw [List.takeWhile_eq_self_iff]
  intro c hc
  have := natChars_isDigit n c hc
  simp only [isDigitChar, Bool.and_eq_true, decide_eq_true_eq]
  omega

theorem parseNatRun_natChars (n : Nat) : parseNatRun (natChars n) = some n := by
  unfold parseNatRun
  rw [takeWhile_isDigit_natChars]
  rw [if_neg (by simp [natChars_ne_nil n]), charsToNat_natChars]

theorem stoiChars_natChars (n : Nat) : stoiChars (natChars n) = some (n : Int) := by
  cases h : natChars n with
  | nil => exact absurd h (natChars_ne_nil n)
  | cons c cs =>
    have hcm : c ∈ natChars n := by
      rw [h]
      exact List.mem_cons_self _ _
    show (if c = Char.ofNat 45 then (parseNatRun cs).map (fun m => -(m : Int))
      else (parseNatRun (c :: cs)).map (fun m => (m : Int))) = some (n : Int)
    rw [if_neg (natChars_ne_minus n c hcm), ← h, parseNatRun_natChars]
    rfl

theorem strToInt_intToString (n : Int) : strToInt (intToString n) = some n := by
  unfold strToInt intToString intChars
  by_cases h : n < 0
  · simp only [h, if_true]
    show stoiChars (Char.ofNat 45 :: natChars n.natAbs) = some n
    show (if Char.ofNat 45 = Char.ofNat 45 then
        (parseNatRun (natChars n.natAbs)).map (fun m => -(m : Int))
      else (parseNatRun (Char.ofNat 45 :: natChars n.natAbs)).map (fun m => (m : Int)))
      = some n
    rw [if_pos rfl, parseNatRun_natChars]
    show some (-(n.natAbs : Int)) = some n
    congr 1
    omega
  · simp only [h, if_false]
    show stoiChars (natChars n.natAbs) = some n
    rw [stoiChars_natChars]
    congr 1
    omega

theorem Store.getK_setK_same (st : Store) (k v : String) :
    (st.setK k v).getK k = some v := by
  simp [Store.setK, Store.getK]

theorem Store.getK_setK_other (st : Store) (k v q : String) (h : q ≠ k) :
    (st.setK k v).getK q = st.getK q := by
  simp [Store.setK, Store.getK, h]

/-! ### Association-list lookup facts -/

theorem lookup_none_iff (a : String) (l : NameTable) :
    List.lookup a l = none ↔ a ∉ l.map Prod.fst := by
  induction l with
  | nil => simp [List.lookup]
  | cons p rest ih =>
    by_cases h : a = p.1
    · simp [List.lookup, h]
    · simp [List.lookup, beq_false_of_ne h, ih, h]

theorem lookup_mem (a : String) (l : NameTable) (b : WorkerId)
    (h : List.lookup a l = some b) : (a, b) ∈ l := by
  induction l with
  | nil => simp [List.lookup] at h
  | cons p rest ih =>
    cases p with
    | mk k v =>
      by_cases hp : a = k
      · subst hp
        simp [List.lookup] at h
        subst h
        exact List.mem_cons_self _ _
      · simp [List.lookup, beq_false_of_ne hp] at h
        exact List.mem_cons_of_mem _ (ih h)

/-! ### Unfolding lemmas for `collectNamesLoop` -/

theorem collectNamesLoop_nil (st : Store) (selfId : WorkerId) (acc : NameTable) :
    collectNamesLoop st selfId [] acc = ([], .ok acc) := rfl

theorem collectNamesLoop_cons_skip (st : Store) (selfId : WorkerId)
    (rest : List WorkerId) (acc : NameTable) :
    collectNamesLoop st selfId (selfId :: rest) acc = collectNamesLoop st selfId rest acc := by
  simp [collectNamesLoop]

theorem collectNamesLoop_cons_blocked (st : Store) (selfId w : WorkerId)
    (rest : List WorkerId) (acc : NameTable) (hw : w ≠ selfId)
    (hg : st.getK (workerKey w) = none) :
    collectNamesLoop st selfId (w :: rest) acc
      = ([.getOp (workerKey w)], .error (.blocked (workerKey w))) := by
  simp [collectNamesLoop, hw, hg]

theorem collectNamesLoop_cons_collision (st : Store) (selfId w : WorkerId)
    (rest : List WorkerId) (acc : NameTable) (name : String) (a : WorkerId)
    (hw : w ≠ selfId) (hg : st.getK (workerKey w) = some name)
    (hl : List.lookup name acc = some a) :
    collectNamesLoop st selfId (w :: rest) acc
      = ([.getOp (workerKey w)], .error (.nameCollision a w name)) := by
  simp [collectNamesLoop, hw, hg, hl]

theorem collectNamesLoop_cons_step (st : Store) (selfId w : WorkerId)
    (rest : List WorkerId) (acc : NameTable) (name : String)
    (hw : w ≠ selfId) (hg : st.getK (workerKey w) = some name)
    (hl : List.lookup name acc = none) :
    collectNamesLoop st selfId (w :: rest) acc
      = (.getOp (workerKey w) :: (collectNamesLoop st selfId rest (acc ++ [(name, w)])).1,
         (collectNamesLoop st selfId rest (acc ++ [(name, w)])).2) := by
  simp [collectNamesLoop, hw, hg, hl]

/-- Master case analysis for the read loop: when every peer key resolves to
`g`, the loop either succeeds with exactly the table of resolved names (and
the collected names are pairwise distinct), or fails with a `nameCollision`
error that names two genuinely distinct ids sharing one name. -/
theorem collectNamesLoop_cases (st : Store) (selfId : WorkerId) (g : WorkerId → String) :
    ∀ (ids : List WorkerId) (acc : NameTable),
    (∀ w ∈ ids, w ≠ selfId → st.getK (workerKey w) = some (g w)) →
    (∀ p ∈ acc, p.1 = g p.2) →
    (∀ p ∈ acc, p.2 = selfId ∨ p.2 ∉ ids) →
    ids.Nodup →
    (acc.map Prod.fst).Nodup →
    ((collectNamesLoop st selfId ids acc).2
        = .ok (acc ++ (ids.filter (fun w => w ≠ selfId)).map (fun w => (g w, w)))
      ∧ (acc.map Prod.fst ++ (ids.filter (fun w => w ≠ selfId)).map g).Nodup)
    ∨ (∃ a b, a ≠ b ∧ g a = g b
        ∧ (a ∈ acc.map Prod.snd ∨ a ∈ ids) ∧ b ∈ ids ∧ b ≠ selfId
        ∧ (collectNamesLoop st selfId ids acc).2 = .error (.nameCollision a b (g b))) := by
  intro ids
  induction ids with
  | nil =>
    intro acc hres hsound hfresh hnodup hkeys
    left
    refine ⟨by simp [collectNamesLoop_nil], by simpa using hkeys⟩
  | cons w rest ih =>
    intro acc hres hsound hfresh hnodup hkeys
    by_cases hw : w = selfId
    · subst hw
      rw [collectNamesLoop_cons_skip]
      have h := ih acc
        (fun v hv hvs => hres v (List.mem_cons_of_mem _ hv) hvs)
        hsound
        (fun p hp => (hfresh p hp).imp id (fun h2 => fun hc => h2 (List.mem_cons_of_mem _ hc)))
        (List.Nodup.of_cons hnodup) hkeys
      rcases h with ⟨hok, hnd⟩ | ⟨a, b, hab, hgab, ha, hb, hbs, herr⟩
      · left
        constructor
        · rw [hok]
          congr 2
          simp
        · simpa using hnd
      · right
        exact ⟨a, b, hab, hgab, ha.imp id (List.mem_cons_of_mem _),
          List.mem_cons_of_mem _ hb, hbs, herr⟩
    · have hg := hres w (List.mem_cons_self _ _) hw
      cases hl : List.lookup (g w) acc with
      | some a =>
        right
        have hpair := lookup_mem _ _ _ hl
        have hga : g w = g a := hsound _ hpair
        have haw : a ≠ w := by
          rcases hfresh _ hpair with h1 | h1
          · have h1a : a = selfId := h1
            rw [h1a]
            exact fun hc => hw hc.symm
          · intro hc
            exact h1 (by rw [hc]; exact List.mem_cons_self _ _)
        refine ⟨a, w, haw, hga.symm, Or.inl ?_, List.mem_cons_self _ _, hw, ?_⟩
        · exact List.mem_map_of_mem Prod.snd hpair
        · rw [collectNamesLoop_cons_collision st selfId w rest acc (g w) a hw hg hl]
      | none =>
        rw [collectNamesLoop_cons_step st selfId w rest acc (g w) hw hg hl]
        have hwrest : w ∉ rest := (List.nodup_cons.mp hnodup).1
        have h := ih (acc ++ [(g w, w)])
          (fun v hv hvs => hres v (List.mem_cons_of_mem _ hv) hvs)
          (by
            intro p hp
            rcases List.mem_append.mp hp with h1 | h1
            · exact hsound p h1
            · simp at h1
              rw [h1])
          (by
            intro p hp
            rcases List.mem_append.mp hp with h1 | h1
            · exact (hfresh p h1).imp id (fun h2 hc => h2 (List.mem_cons_of_mem _ hc))
            · simp at h1
              rw [h1]
              exact Or.inr hwrest)
          (List.Nodup.of_cons hnodup)
          (by
            rw [List.map_append]
            rw [List.nodup_append]
            refine ⟨hkeys, by simp, ?_⟩
            simp only [List.map_cons, List.map_nil]
            intro x hx hx2
            simp at hx2
            rw [hx2] at hx
            exact (lookup_none_iff _ _).mp hl hx)
        rcases h with ⟨hok, hnd⟩ | ⟨a, b, hab, hgab, ha, hb, hbs, herr⟩
        · left
          constructor
          · rw [hok]
            simp only [List.filter_cons, decide_eq_true_eq]
            rw [if_pos hw]
            simp [List.append_assoc]
          · simp only [List.filter_cons, decide_eq_true_eq]
            rw [if_pos hw]
            simpa [List.append_assoc] using hnd
        · right
          refine ⟨a, b, hab, hgab, ?_, List.mem_cons_of_mem _ hb, hbs, herr⟩
          rcases ha with h1 | h1
          · simp only [List.map_append] at h1
            rcases List.mem_append.mp h1 with h2 | h2
            · exact Or.inl h2
            · simp at h2
              rw [h2]
              exact Or.inr (List.mem_cons_self _ _)
          · exact Or.inr (List.mem_cons_of_mem _ h1)

/-- Unconditional shape of a successful loop run: the accumulator is
extended by one entry per non-self id (in order), and the final name keys
are pairwise distinct. -/
theorem collectNamesLoop_ok_shape (st : Store) (selfId : WorkerId) :
    ∀ (ids : List WorkerId) (acc t : NameTable),
    (collectNamesLoop st selfId ids acc).2 = .ok t →
    (acc.map Prod.fst).Nodup →
    ∃ ext, t = acc ++ ext
      ∧ ext.map Prod.snd = ids.filter (fun w => w ≠ selfId)
      ∧ (t.map Prod.fst).Nodup := by
  intro ids
  induction ids with
  | nil =>
    intro acc t hok hkeys
    rw [collectNamesLoop_nil] at hok
    cases hok
    exact ⟨[], by simp, by simp, by simpa⟩
  | cons w rest ih =>
    intro acc t hok hkeys
    by_cases hw : w = selfId
    · subst hw
      rw [collectNamesLoop_cons_skip] at hok
      obtain ⟨ext, h1, h2, h3⟩ := ih acc t hok hkeys
      exact ⟨ext, h1, by simpa using h2, h3⟩
    · cases hget : st.getK (workerKey w) with
      | none =>
        rw [collectNamesLoop_cons_blocked st selfId w rest acc hw hget] at hok
        cases hok
      | some name =>
        cases hl : List.lookup name acc with
        | some a =>
          rw [collectNamesLoop_cons_collision st selfId w rest acc name a hw hget hl] at hok
          cases hok
        | none =>
          rw [collectNamesLoop_cons_step st selfId w rest acc name hw hget hl] at hok
          have hkeys2 : ((acc ++ [(name, w)]).map Prod.fst).Nodup := by
            rw [List.map_append, List.nodup_append]
            refine ⟨hkeys, by simp, ?_⟩
            simp only [List.map_cons, List.map_nil]
            intro x hx hx2
            simp at hx2
            rw [hx2] at hx
            exact (lookup_none_iff _ _).mp hl hx
          obtain ⟨ext, h1, h2, h3⟩ := ih (acc ++ [(name, w)]) t hok hkeys2
          refine ⟨(name, w) :: ext, by simpa [List.append_assoc] using h1, ?_, h3⟩
          simp only [List.filter_cons, decide_eq_true_eq]
          rw [if_pos hw]
          simpa using h2

/-- Every operation the loop issues is a read of a non-self worker key. -/
theorem collectNamesLoop_trace (st : Store) (selfId : WorkerId) :
    ∀ (ids : List WorkerId) (acc : NameTable),
    ∀ op ∈ (collectNamesLoop st selfId ids acc).1,
    ∃ w, w ∈ ids ∧ w ≠ selfId ∧ op = .getOp (workerKey w) := by
  intro ids
  induction ids with
  | nil =>
    intro acc op hop
    rw [collectNamesLoop_nil] at hop
    simp at hop
  | cons w rest ih =>
    intro acc op hop
    by_cases hw : w = selfId
    · subst hw
      rw [collectNamesLoop_cons_skip] at hop
      obtain ⟨v, h1, h2, h3⟩ := ih acc op hop
      exact ⟨v, List.mem_cons_of_mem _ h1, h2, h3⟩
    · cases hget : st.getK (workerKey w) with
      | none =>
        rw [collectNamesLoop_cons_blocked st selfId w rest acc hw hget] at hop
        simp at hop
        exact ⟨w, List.mem_cons_self _ _, hw, hop⟩
      | some name =>
        cases hl : List.lookup name acc with
        | some a =>
          rw [collectNamesLoop_cons_collision st selfId w rest acc name a hw hget hl] at hop
          simp at hop
          exact ⟨w, List.mem_cons_self _ _, hw, hop⟩
        | none =>
          rw [collectNamesLoop_cons_step st selfId w rest acc name hw hget hl] at hop
          rcases List.mem_cons.mp hop with h1 | h1
          · exact ⟨w, List.mem_cons_self _ _, hw, h1⟩
          · obtain ⟨v, h2, h3, h4⟩ := ih (acc ++ [(name, w)]) op h1
            exact ⟨v, List.mem_cons_of_mem _ h2, h3, h4⟩

theorem workerKey_injective (a b : WorkerId) (h : workerKey a = workerKey b) : a = b :=
  intToString_injective a b h

theorem collectNames_eq (st : Store) (selfId : WorkerId) (selfName : String) (W : Nat) :
    collectNames st selfId selfName W
      = (.setOp (workerKey selfId) selfName ::
          (collectNamesLoop (st.setK (workerKey selfId) selfName) selfId
            ((List.range W).map Int.ofNat) [(selfName, selfId)]).1,
         (collectNamesLoop (st.setK (workerKey selfId) selfName) selfId
            ((List.range W).map Int.ofNat) [(selfName, selfId)]).2) := rfl

theorem resolve_after_self_set (st : Store) (selfId : WorkerId) (selfName : String)
    (f : Nat → String) (W : Nat)
    (hres : ∀ i, i < W → Int.ofNat i ≠ selfId →
      st.data (workerKey (Int.ofNat i)) = some (f i)) :
    ∀ w ∈ (List.range W).map Int.ofNat, w ≠ selfId →
      (st.setK (workerKey selfId) selfName).getK (workerKey w) = some (f w.toNat) := by
  intro w hw hws
  obtain ⟨i, hi, rfl⟩ := List.mem_map.mp hw
  rw [Store.getK_setK_other]
  · exact hres i (List.mem_range.mp hi) hws
  · intro hc
    exact hws (workerKey_injective _ _ hc)

theorem range_map_ofNat_nodup (W : Nat) : ((List.range W).map Int.ofNat).Nodup :=
  (List.nodup_map_iff (fun a b h => Int.ofNat_inj.mp h)).mpr (List.nodup_range W)

theorem filter_range_map_ofNat (W : Nat) (k : Nat) :
    ((List.range W).map Int.ofNat).filter (fun w => w ≠ Int.ofNat k)
      = ((List.range W).filter (fun i => i ≠ k)).map Int.ofNat := by
  rw [List.filter_map]
  congr 1
  apply List.filter_congr
  intro i _
  simp only [Function.comp_apply]
  exact decide_eq_decide.mpr (by simp [Int.ofNat_inj])

theorem range_map_perm (W : Nat) (k : Nat) (hk : k < W) (F : Nat → String × WorkerId) :
    (F k :: ((List.range W).filter (fun i => i ≠ k)).map F).Perm
      ((List.range W).map F) := by
  have h1 : (List.range W).Perm (k :: (List.range W).erase k) :=
    List.perm_cons_erase (List.mem_range.mpr hk)
  have h2 : (List.range W).erase k = (List.range W).filter (fun i => i ≠ k) := by
    rw [(List.nodup_range W).erase_eq_filter k]
    apply List.filter_congr
    intro i _
    by_cases h : i = k <;> simp [h]
  have h3 := (h1.map F).symm
  rw [h2] at h3
  simpa using h3

/-- With all peer keys resolving through `f` and pairwise-distinct names,
`collectNames` succeeds with the canonical table. -/
theorem collectNames_resolves_ok (W : Nat) (f : Nat → String) (st : Store) (k : Nat)
    (hk : k < W)
    (hres : ∀ i, i < W → i ≠ k → st.data (workerKey (Int.ofNat i)) = some (f i))
    (hinj : ∀ i, i < W → ∀ j, j < W → f i = f j → i = j) :
    (collectNames st (Int.ofNat k) (f k) W).2
      = .ok ((f k, Int.ofNat k) ::
          ((List.range W).filter (fun i => i ≠ k)).map (fun i => (f i, Int.ofNat i))) := by
  rw [collectNames_eq]
  have hres2 : ∀ i, i < W → Int.ofNat i ≠ Int.ofNat k →
      st.data (workerKey (Int.ofNat i)) = some (f i) :=
    fun i hi hik => hres i hi (fun hc => hik (by rw [hc]))
  have hloop := collectNamesLoop_cases (st.setK (workerKey (Int.ofNat k)) (f k))
    (Int.ofNat k) (fun w => f w.toNat)
    ((List.range W).map Int.ofNat) [(f k, Int.ofNat k)]
    (resolve_after_self_set st (Int.ofNat k) (f k) f W hres2)
    (by intro p hp; simp at hp; rw [hp]; rfl)
    (by intro p hp; simp at hp; left; rw [hp]; rfl)
    (range_map_ofNat_nodup W)
    (by simp)
  rcases hloop with ⟨hok, _⟩ | ⟨a, b, hab, hgab, ha, hb, _, _⟩
  · rw [hok]
    congr 1
    rw [filter_range_map_ofNat W k, List.map_map]
    rfl
  · exfalso
    obtain ⟨b2, hb2, rfl⟩ := List.mem_map.mp hb
    have hbW : b2 < W := List.mem_range.mp hb2
    have haform : ∃ a2, a2 < W ∧ a = Int.ofNat a2 := by
      rcases ha with h1 | h1
      · simp at h1
        exact ⟨k, hk, h1⟩
      · obtain ⟨a2, ha2, rfl⟩ := List.mem_map.mp h1
        exact ⟨a2, List.mem_range.mp ha2, rfl⟩
    obtain ⟨a2, ha2W, rfl⟩ := haform
    exact hab (congrArg Int.ofNat (hinj a2 ha2W b2 hbW hgab))

/-- With all peer keys resolving through `f` and a genuine name collision
among the group, `collectNames` fails with a `nameCollision` naming two
distinct ids that share one name. -/
theorem collectNames_collision_error (W : Nat) (f : Nat → String) (st : Store) (k : Nat)
    (hk : k < W)
    (hres : ∀ i, i < W → i ≠ k → st.data (workerKey (Int.ofNat i)) = some (f i))
    (i j : Nat) (hi : i < W) (hj : j < W) (hij : i ≠ j) (hfij : f i = f j) :
    ∃ a b : Nat, a < W ∧ b < W ∧ a ≠ b ∧ f a = f b
      ∧ (collectNames st (Int.ofNat k) (f k) W).2
          = .error (.nameCollision (Int.ofNat a) (Int.ofNat b) (f b)) := by
  have hres2 : ∀ i2, i2 < W → Int.ofNat i2 ≠ Int.ofNat k →
      st.data (workerKey (Int.ofNat i2)) = some (f i2) :=
    fun i2 hi2 hik => hres i2 hi2 (fun hc => hik (by rw [hc]))
  have hloop := collectNamesLoop_cases (st.setK (workerKey (Int.ofNat k)) (f k))
    (Int.ofNat k) (fun w => f w.toNat)
    ((List.range W).map Int.ofNat) [(f k, Int.ofNat k)]
    (resolve_after_self_set st (Int.ofNat k) (f k) f W hres2)
    (by intro p hp; simp at hp; rw [hp]; rfl)
    (by intro p hp; simp at hp; left; rw [hp]; rfl)
    (range_map_ofNat_nodup W)
    (by simp)
  rcases hloop with ⟨_, hnd⟩ | ⟨a, b, hab, hgab, ha, hb, _, herr⟩
  · exfalso
    rw [filter_range_map_ofNat W k, List.map_map] at hnd
    have hnd2 : (f k :: ((List.range W).filter (fun i2 => i2 ≠ k)).map f).Nodup := by
      simpa using hnd
    have hhead : f k ∉ ((List.range W).filter (fun i2 => i2 ≠ k)).map f :=
      (List.nodup_cons.mp hnd2).1
    have htail : (((List.range W).filter (fun i2 => i2 ≠ k)).map f).Nodup :=
      (List.nodup_cons.mp hnd2).2
    have hmemf : ∀ i2, i2 < W → i2 ≠ k →
        i2 ∈ (List.range W).filter (fun i3 => i3 ≠ k) := by
      intro i2 h1 h2
      rw [List.mem_filter]
      exact ⟨List.mem_range.mpr h1, by simpa using h2⟩
    by_cases hik : i = k
    · have hjk : j ≠ k := fun hc => hij (hik ▸ hc ▸ rfl)
      apply hhead
      have hkj : f k = f j := by
        rw [← hik, hfij]
      rw [hkj]
      exact List.mem_map_of_mem f (hmemf j hj hjk)
    · by_cases hjk : j = k
      · apply hhead
        have hki : f k = f i := by
          rw [← hjk, hfij]
        rw [hki]
        exact List.mem_map_of_mem f (hmemf i hi hik)
      · exact hij (List.inj_on_of_nodup_map htail (hmemf i hi hik) (hmemf j hj hjk) hfij)
  · obtain ⟨b2, hb2, rfl⟩ := List.mem_map.mp hb
    have hbW : b2 < W := List.mem_range.mp hb2
    have haform : ∃ a2, a2 < W ∧ a = Int.ofNat a2 := by
      rcases ha with h1 | h1
      · simp at h1
        exact ⟨k, hk, h1⟩
      · obtain ⟨a2, ha2, rfl⟩ := List.mem_map.mp h1
        exact ⟨a2, List.mem_range.mp ha2, rfl⟩
    obtain ⟨a2, ha2W, rfl⟩ := haform
    refine ⟨a2, b2, ha2W, hbW, ?_, hgab, ?_⟩
    · intro hc
      exact hab (congrArg Int.ofNat hc)
    · rw [collectNames_eq]
      exact herr

/-- C2: with pairwise-distinct names and ids `0, …, groupSize-1` published in
the store, `collectNames` succeeds on every worker `k` with a table that is,
as a map, the same on every worker: it is a permutation of the canonical
association list `[(f 0, 0), …, (f (W-1), W-1)]` (so it maps each worker's
name to its id) and has exactly `groupSize` entries. -/
theorem collectNames_identical_tables (W : Nat) (f : Nat → String) (st : Store) (k : Nat)
    (hk : k < W)
    (hres : ∀ i, i < W → i ≠ k → st.data (workerKey (Int.ofNat i)) = some (f i))
    (hinj : ∀ i, i < W → ∀ j, j < W → f i = f j → i = j) :
    ∃ t, (collectNames st (Int.ofNat k) (f k) W).2 = .ok t
      ∧ t.Perm ((List.range W).map (fun i => (f i, Int.ofNat i)))
      ∧ t.length = W := by
  refine ⟨_, collectNames_resolves_ok W f st k hk hres hinj, ?_, ?_⟩
  · exact range_map_perm W k hk (fun i => (f i, Int.ofNat i))
  · have h := (range_map_perm W k hk (fun i => (f i, Int.ofNat i))).length_eq
    simpa using h

/-- Witness for C2 at the spec's example: `{(0,"a"),(1,"b"),(2,"c")}`,
`groupSize = 3`, run on worker 0. -/
theorem collectNames_identical_tables_witness :
    ∃ t, (collectNames exampleStore (Int.ofNat 0) (exampleNames 0) 3).2 = .ok t
      ∧ t.Perm ((List.range 3).map (fun i => (exampleNames i, Int.ofNat i)))
      ∧ t.length = 3 :=
  collectNames_identical_tables 3 exampleNames exampleStore 0 (by decide)
    (by decide) (by decide)

/-- C3: in the fixed-size registry, if two distinct ids resolve to the same
name, `collectNames` fails with a `nameCollision` error carrying two
distinct ids that share one name; with pairwise-distinct names this error is
never produced. -/
theorem collectNames_name_collision (W : Nat) (f : Nat → String) (st : Store) (k : Nat)
    (hk : k < W)
    (hres : ∀ i, i < W → i ≠ k → st.data (workerKey (Int.ofNat i)) = some (f i)) :
    (∀ i, i < W → ∀ j, j < W → i ≠ j → f i = f j →
      ∃ a b : Nat, a < W ∧ b < W ∧ a ≠ b ∧ f a = f b
        ∧ (collectNames st (Int.ofNat k) (f k) W).2
            = .error (.nameCollision (Int.ofNat a) (Int.ofNat b) (f b)))
    ∧ ((∀ i, i < W → ∀ j, j < W → f i = f j → i = j) →
      ∀ a b n, (collectNames st (Int.ofNat k) (f k) W).2 ≠ .error (.nameCollision a b n)) := by
  constructor
  · intro i hi j hj hij hfij
    exact collectNames_collision_error W f st k hk hres i j hi hj hij hfij
  · intro hinj a b n hc
    rw [collectNames_resolves_ok W f st k hk hres hinj] at hc
    cases hc

/-- Witness for C3: workers 0 and 1 both named "a", discovered by worker 2. -/
theorem collectNames_name_collision_witness :
    (∀ i, i < 3 → ∀ j, j < 3 → i ≠ j → collisionNames i = collisionNames j →
      ∃ a b : Nat, a < 3 ∧ b < 3 ∧ a ≠ b ∧ collisionNames a = collisionNames b
        ∧ (collectNames collisionStore (Int.ofNat 2) (collisionNames 2) 3).2
            = .error (.nameCollision (Int.ofNat a) (Int.ofNat b) (collisionNames b)))
    ∧ ((∀ i, i < 3 → ∀ j, j < 3 → collisionNames i = collisionNames j → i = j) →
      ∀ a b n, (collectNames collisionStore (Int.ofNat 2) (collisionNames 2) 3).2
        ≠ .error (.nameCollision a b n)) :=
  collectNames_name_collision 3 collisionNames collisionStore 2 (by decide) (by decide)

/-- C8: every run of `collectNames` performs exactly one store write — its
own name under its own id key, as the first operation — and every other
operation it issues is a read of some other id's key. -/
theorem collectNames_single_write (st : Store) (selfId : WorkerId) (selfName : String)
    (W : Nat) :
    (collectNames st selfId selfName W).1.head? = some (.setOp (workerKey selfId) selfName)
    ∧ (∀ op ∈ (collectNames st selfId selfName W).1.tail,
        ∃ w : WorkerId, w ≠ selfId ∧ op = .getOp (workerKey w))
    ∧ (collectNames st selfId selfName W).1.filter isWriteOp
        = [.setOp (workerKey selfId) selfName] := by
  rw [collectNames_eq]
  refine ⟨rfl, ?_, ?_⟩
  · intro op hop
    obtain ⟨w, _, hw2, hw3⟩ := collectNamesLoop_trace (st.setK (workerKey selfId) selfName)
      selfId ((List.range W).map Int.ofNat) [(selfName, selfId)] op hop
    exact ⟨w, hw2, hw3⟩
  · show List.filter isWriteOp (.setOp (workerKey selfId) selfName :: _) = _
    rw [List.filter_cons_of_pos (by rfl)]
    congr 1
    rw [List.filter_eq_nil]
    intro op hop
    obtain ⟨w, _, _, hw3⟩ := collectNamesLoop_trace (st.setK (workerKey selfId) selfName)
      selfId ((List.range W).map Int.ofNat) [(selfName, selfId)] op hop
    rw [hw3]
    simp [isWriteOp]

/-- Witness for C8 at the example configuration. -/
theorem collectNames_single_write_witness :
    (collectNames exampleStore 0 "a" 3).1.head? = some (.setOp (workerKey 0) "a")
    ∧ (∀ op ∈ (collectNames exampleStore 0 "a" 3).1.tail,
        ∃ w : WorkerId, w ≠ 0 ∧ op = .getOp (workerKey w))
    ∧ (collectNames exampleStore 0 "a" 3).1.filter isWriteOp
        = [.setOp (workerKey 0) "a"] :=
  collectNames_single_write exampleStore 0 "a" 3

theorem findSub_some_lt (d : List Char) (hd : d ≠ []) :
    ∀ (s : List Char) (e : Nat), findSub d s = some e → e < s.length := by
  intro s
  induction s with
  | nil =>
    intro e h
    rw [findSub] at h
    rw [if_neg (by simpa using hd)] at h
    cases h
  | cons c t ih =>
    intro e h
    rw [findSub] at h
    by_cases hp : d.isPrefixOf (c :: t)
    · rw [if_pos hp] at h
      cases h
      simp
    · rw [if_neg hp] at h
      cases he : findSub d t with
      | none => rw [he] at h; cases h
      | some e0 =>
        rw [he] at h
        simp at h
        have := ih e0 he
        simp [← h]
        omega

/-- Fuel irrelevance: any fuel above `s.length` computes the same tokens. -/
theorem splitGoAux_fuel (d : List Char) (hd : d ≠ []) :
    ∀ (fuel1 fuel2 : Nat) (s : List Char), s.length < fuel1 → s.length < fuel2 →
    splitGoAux d fuel1 s = splitGoAux d fuel2 s := by
  intro fuel1
  induction fuel1 with
  | zero =>
    intro fuel2 s h1
    omega
  | succ f1 ih =>
    intro fuel2 s h1 h2
    cases fuel2 with
    | zero => omega
    | succ f2 =>
      rw [splitGoAux, splitGoAux]
      cases he : findSub d s with
      | none => rfl
      | some e =>
        have helt := findSub_some_lt d hd s e he
        have hdrop : (s.drop (e + d.length)).length < s.length := by
          rw [List.length_drop]
          have hdl : 0 < d.length := List.length_pos.mpr hd
          omega
        show s.take e :: splitGoAux d f1 (s.drop (e + d.length))
          = s.take e :: splitGoAux d f2 (s.drop (e + d.length))
        rw [ih f2 (s.drop (e + d.length)) (by omega) (by omega)]

/-- One-step unfolding of `splitChars` (the loop body of lines 51–54). -/
theorem splitChars_unfold (d s : List Char) (hd : d ≠ []) :
    splitChars d s = match findSub d s with
      | none => [s]
      | some e => s.take e :: splitChars d (s.drop (e + d.length)) := by
  show splitGoAux d (s.length + 1) s = _
  rw [splitGoAux]
  cases he : findSub d s with
  | none => rfl
  | some e =>
    have helt := findSub_some_lt d hd s e he
    have hdrop : (s.drop (e + d.length)).length < s.length := by
      rw [List.length_drop]
      have hdl : 0 < d.length := List.length_pos.mpr hd
      omega
    show s.take e :: splitGoAux d s.length (s.drop (e + d.length))
      = s.take e :: splitChars d (s.drop (e + d.length))
    rw [splitGoAux_fuel d hd (s.length) ((s.drop (e + d.length)).length + 1)
      (s.drop (e + d.length)) (by omega) (by omega)]
    rfl

/-! ### Single-character split round trip -/

theorem findSub_single_none (c : Char) (p : List Char) (hc : c ∉ p) :
    findSub [c] p = none := by
  induction p with
  | nil => rfl
  | cons x t ih =>
    rw [findSub]
    have hx : c ≠ x := fun h => hc (h ▸ List.mem_cons_self _ _)
    rw [if_neg (by simp [List.isPrefixOf, beq_iff_eq, hx])]
    rw [ih (fun h => hc (List.mem_cons_of_mem _ h))]
    rfl

theorem findSub_single_append (c : Char) (p r : List Char) (hc : c ∉ p) :
    findSub [c] (p ++ c :: r) = some p.length := by
  induction p with
  | nil =>
    rw [List.nil_append, findSub]
    rw [if_pos (by simp [List.isPrefixOf])]
    rfl
  | cons x t ih =>
    rw [List.cons_append, findSub]
    have hx : c ≠ x := fun h => hc (h ▸ List.mem_cons_self _ _)
    rw [if_neg (by simp [List.isPrefixOf, beq_iff_eq, hx])]
    rw [ih (fun h => hc (List.mem_cons_of_mem _ h))]
    rfl

theorem splitChars_single_no_delim (c : Char) (p : List Char) (hc : c ∉ p) :
    splitChars [c] p = [p] := by
  rw [splitChars_unfold [c] p (by simp), findSub_single_none c p hc]

theorem splitChars_single_cons (c : Char) (p r : List Char) (hc : c ∉ p) :
    splitChars [c] (p ++ c :: r) = p :: splitChars [c] r := by
  rw [splitChars_unfold [c] (p ++ c :: r) (by simp),
    findSub_single_append c p r hc]
  show (p ++ c :: r).take p.length :: splitChars [c] ((p ++ c :: r).drop (p.length + 1))
    = p :: splitChars [c] r
  have htake : (p ++ c :: r).take p.length = p := by
    rw [List.take_left]
  have hdrop : (p ++ c :: r).drop (p.length + 1) = r := by
    have : p ++ c :: r = (p ++ [c]) ++ r := by simp
    rw [this]
    have hlen : p.length + 1 = (p ++ [c]).length := by simp
    rw [hlen, List.drop_left]
  rw [htake, hdrop]

theorem splitChars_joinWith (c : Char) :
    ∀ (ps : List (List Char)), ps ≠ [] → (∀ p ∈ ps, c ∉ p) →
    splitChars [c] (joinWith c ps) = ps := by
  intro ps
  induction ps with
  | nil => intro h; exact absurd rfl h
  | cons p rest ih =>
    intro _ hc
    cases rest with
    | nil =>
      rw [joinWith]
      exact splitChars_single_no_delim c p (hc p (List.mem_cons_self _ _))
    | cons q rest2 =>
      rw [joinWith, splitChars_single_cons c p (joinWith c (q :: rest2))
        (hc p (List.mem_cons_self _ _))]
      rw [ih (by simp) (fun x hx => hc x (List.mem_cons_of_mem _ hx))]

theorem charMinus_eq : (Char.ofNat 45) = ('-' : Char) := by decide

theorem charComma_not_digit (n : Nat) : (',' : Char) ∉ natChars n := by
  intro h
  have := natChars_isDigit n _ h
  revert this
  decide

theorem charMinus_not_digit (n : Nat) : ('-' : Char) ∉ natChars n := by
  intro h
  exact natChars_ne_minus n _ h charMinus_eq.symm

theorem recordChars_eq (name : String) (id : Int) :
    recordChars (name, id) = name.data ++ '-' :: intChars id := by
  show (name ++ "-" ++ intToString id).data = _
  rw [String.data_append, String.data_append]
  show name.data ++ ['-'] ++ intChars id = _
  rw [List.append_assoc]
  rfl

theorem comma_not_mem_recordChars (name : String) (id : Int)
    (hname : ∀ c ∈ name.data, c ≠ ',') (hid : 0 ≤ id) :
    (',' : Char) ∉ recordChars (name, id) := by
  rw [recordChars_eq]
  intro h
  rcases List.mem_append.mp h with h1 | h1
  · exact hname _ h1 rfl
  · rcases List.mem_cons.mp h1 with h2 | h2
    · cases h2
    · have : intChars id = natChars id.natAbs := by
        unfold intChars
        rw [if_neg (by omega)]
      rw [this] at h2
      exact charComma_not_digit id.natAbs h2

theorem serialize_foldl_data (ps : List (String × Int)) :
    ∀ acc : String,
    (ps.foldl (fun a q => appendWorkerRecord a q.1 q.2) acc).data
      = acc.data ++ (ps.map (fun q => ',' :: recordChars q)).flatten := by
  induction ps with
  | nil => intro acc; simp
  | cons q rest ih =>
    intro acc
    rw [List.foldl_cons, ih]
    show (acc ++ "," ++ workerRecord q.1 q.2).data ++ _ = _
    rw [String.data_append, String.data_append]
    show acc.data ++ [','] ++ (workerRecord q.1 q.2).data ++ _ = _
    rw [List.map_cons, List.flatten_cons]
    show _ = acc.data ++ ((',' :: recordChars q) ++ _)
    rw [List.append_assoc, List.append_assoc]
    rfl

theorem joinWith_comma_records (p : String × Int) (ps : List (String × Int)) :
    joinWith ',' ((p :: ps).map recordChars)
      = recordChars p ++ (ps.map (fun q => ',' :: recordChars q)).flatten := by
  induction ps generalizing p with
  | nil => simp [joinWith]
  | cons q rest ih =>
    rw [List.map_cons]
    show joinWith ',' (recordChars p :: recordChars q :: rest.map recordChars)
      = _
    rw [joinWith]
    have ihq := ih q
    rw [List.map_cons] at ihq
    rw [ihq]
    rw [List.map_cons, List.flatten_cons]
    rfl

theorem serializeManifest_data (p : String × Int) (ps : List (String × Int)) :
    (serializeManifest (p :: ps)).data = joinWith ',' ((p :: ps).map recordChars) := by
  rw [joinWith_comma_records]
  show (ps.foldl (fun a q => appendWorkerRecord a q.1 q.2) (workerRecord p.1 p.2)).data = _
  rw [serialize_foldl_data]
  rfl

theorem parseRecord_workerRecord (name : String) (id : Int)
    (hname : ∀ c ∈ name.data, c ≠ '-') (hid : 0 ≤ id) :
    parseRecord (String.mk (recordChars (name, id))) = .ok (name, id) := by
  have hchars : intChars id = natChars id.natAbs := by
    unfold intChars
    rw [if_neg (by omega)]
  have hsplit : splitString (String.mk (recordChars (name, id))) "-"
      = [name, intToString id] := by
    unfold splitString
    rw [if_neg (by decide)]
    show (splitChars ['-'] (recordChars (name, id))).map String.mk = _
    rw [recordChars_eq]
    rw [splitChars_single_cons '-' name.data (intChars id) (fun h => hname _ h rfl)]
    rw [splitChars_single_no_delim '-' (intChars id)
      (by rw [hchars]; exact charMinus_not_digit id.natAbs)]
    rfl
  unfold parseRecord
  rw [hsplit]
  show (match strToInt (intToString id) with
    | none => Except.error RegError.stoiFailure
    | some i => Except.ok (name, i)) = Except.ok (name, id)
  rw [strToInt_intToString]

theorem mapM_parseRecord_ok (l : List (String × Int))
    (h : ∀ p ∈ l, parseRecord (String.mk (recordChars p)) = .ok p) :
    (l.map (fun q => String.mk (recordChars q))).mapM parseRecord = .ok l := by
  induction l with
  | nil => rfl
  | cons p rest ih =>
    rw [List.map_cons, List.mapM_cons, h p (List.mem_cons_self _ _),
      ih (fun q hq => h q (List.mem_cons_of_mem _ hq))]
    rfl

/-- C9: serializing (name, id) pairs as comma-separated `name-id` records —
exactly as the dynamic registry appends them — and re-parsing the manifest
with `splitString` recovers the written pairs, in order.  The names must
avoid the two delimiter characters (the spec's documented limitation), the
ids are worker ids and hence non-negative, and at least one worker has
registered (the registry never writes an empty manifest). -/
theorem manifest_round_trip (ps : List (String × Int)) (hne : ps ≠ [])
    (hname : ∀ p ∈ ps, ∀ c ∈ p.1.data, c ≠ ',' ∧ c ≠ '-')
    (hid : ∀ p ∈ ps, 0 ≤ p.2) :
    parseManifest (serializeManifest ps) = .ok ps := by
  cases ps with
  | nil => exact absurd rfl hne
  | cons p rest =>
    unfold parseManifest
    have hsplit : splitString (serializeManifest (p :: rest)) ","
        = (p :: rest).map (fun q => String.mk (recordChars q)) := by
      unfold splitString
      rw [if_neg (by decide)]
      show (splitChars [','] (serializeManifest (p :: rest)).data).map String.mk = _
      rw [serializeManifest_data,
        splitChars_joinWith ',' ((p :: rest).map recordChars) (by simp) (by
          intro x hx
          obtain ⟨q, hq, rfl⟩ := List.mem_map.mp hx
          exact comma_not_mem_recordChars q.1 q.2
            (fun c hc => ((hname q hq) c hc).1) (hid q hq))]
      rw [List.map_map]
      rfl
    rw [hsplit]
    apply mapM_parseRecord_ok
    intro q hq
    exact parseRecord_workerRecord q.1 q.2 (fun c hc => ((hname q hq) c hc).2) (hid q hq)

/-- Witness for C9 on the two-worker manifest `"a-0,b-1"`. -/
theorem manifest_round_trip_witness :
    parseManifest (serializeManifest [("a", 0), ("b", 1)]) = .ok [("a", 0), ("b", 1)] :=
  manifest_round_trip [("a", 0), ("b", 1)] (by decide) (by decide) (by decide)

theorem compareSetK_data_other (st : Store) (k e d q : String) (h : q ≠ k) :
    ((st.compareSetK k e d).1).data q = st.data q := by
  unfold Store.compareSetK
  cases st.data k with
  | none =>
    by_cases he : e = "" <;> simp [he, Store.setK, h]
  | some cur =>
    by_cases hc : cur = e <;> simp [hc, Store.setK, h]

theorem allWorkerInfosKey_ne_workerKey (id : WorkerId) :
    allWorkerInfosKey ≠ workerKey id := by
  intro h
  have hd := congrArg String.data h
  show False
  unfold workerKey intToString at hd
  have hd2 : ('A' : Char) :: "llWorkerInfos".data = intChars id := hd
  unfold intChars at hd2
  by_cases hid : id < 0
  · rw [if_pos hid] at hd2
    have : ('A' : Char) = Char.ofNat 45 := (List.cons.injEq _ _ _ _ ▸ hd2).1
    revert this
    decide
  · rw [if_neg hid] at hd2
    have hm : ('A' : Char) ∈ natChars id.natAbs := by
      rw [← hd2]
      exact List.mem_cons_self _ _
    have := natChars_isDigit id.natAbs _ hm
    revert this
    decide

theorem parseRecord_error_cases (r : String) (e : RegError)
    (h : parseRecord r = .error e) : e = .outOfRange ∨ e = .stoiFailure := by
  unfold parseRecord at h
  cases h0 : (splitString r "-").head? with
  | none =>
    simp only [h0] at h
    cases h
    exact Or.inl rfl
  | some name =>
    simp only [h0] at h
    cases h1 : (splitString r "-")[1]? with
    | none =>
      simp only [h1] at h
      cases h
      exact Or.inl rfl
    | some idStr =>
      simp only [h1] at h
      cases h2 : strToInt idStr with
      | none =>
        simp only [h2] at h
        cases h
        exact Or.inr rfl
      | some id =>
        simp only [h2] at h
        cases h

theorem collectCurrentLoop_no_idcol :
    ∀ (rs : List String) (acc : NameTable) (e : RegError),
    collectCurrentLoop rs acc = .error e →
    ∀ i o r, e ≠ .idCollision i o r := by
  intro rs
  induction rs with
  | nil =>
    intro acc e h
    cases h
  | cons r rest ih =>
    intro acc e h i o rj hc
    subst hc
    rw [collectCurrentLoop] at h
    cases hp : parseRecord r with
    | error e2 =>
      simp only [hp] at h
      cases h
      rcases parseRecord_error_cases r _ hp with h1 | h1 <;> cases h1
    | ok p =>
      obtain ⟨pn, pi⟩ := p
      simp only [hp] at h
      cases hl : List.lookup pn acc with
      | some ex =>
        simp only [hl] at h
        cases h
      | none =>
        simp only [hl] at h
        exact ih _ _ h i o rj rfl

/-- A successful manifest loop run parses every record (as `parseManifest`
does) and extends the accumulator by the narrowed pairs, in order, with
pairwise-distinct names. -/
theorem collectCurrentLoop_ok :
    ∀ (rs : List String) (acc t : NameTable),
    collectCurrentLoop rs acc = .ok t →
    (acc.map Prod.fst).Nodup →
    ∃ ps, rs.mapM parseRecord = .ok ps
      ∧ t = acc ++ ps.map (fun p => (p.1, toWorkerId p.2))
      ∧ (t.map Prod.fst).Nodup := by
  intro rs
  induction rs with
  | nil =>
    intro acc t h hkeys
    cases h
    exact ⟨[], rfl, by simp, by simpa using hkeys⟩
  | cons r rest ih =>
    intro acc t h hkeys
    rw [collectCurrentLoop] at h
    cases hp : parseRecord r with
    | error e2 =>
      simp only [hp] at h
      cases h
    | ok p =>
      obtain ⟨pn, pi⟩ := p
      simp only [hp] at h
      cases hl : List.lookup pn acc with
      | some ex =>
        simp only [hl] at h
        cases h
      | none =>
        simp only [hl] at h
        have hkeys2 : ((acc ++ [(pn, toWorkerId pi)]).map Prod.fst).Nodup := by
          rw [List.map_append, List.nodup_append]
          refine ⟨hkeys, by simp, ?_⟩
          simp only [List.map_cons, List.map_nil]
          intro x hx hx2
          simp at hx2
          rw [hx2] at hx
          exact (lookup_none_iff _ _).mp hl hx
        obtain ⟨ps, h1, h2, h3⟩ := ih (acc ++ [(pn, toWorkerId pi)]) t h hkeys2
        refine ⟨(pn, pi) :: ps, ?_, ?_, h3⟩
        · rw [List.mapM_cons, hp, h1]
          rfl
        · rw [h2]
          simp [List.append_assoc]

/-- CAS result when the key currently holds a non-empty value. -/
theorem compareSetK_occupied (st : Store) (k d occ : String)
    (hocc : st.data k = some occ) (hne : occ ≠ "") :
    st.compareSetK k "" d = (st, occ) := by
  unfold Store.compareSetK
  rw [hocc]
  show (if occ = "" then (st.setK k d, d) else (st, occ)) = (st, occ)
  rw [if_neg hne]

/-- CAS result when the key is absent or already holds the desired value. -/
theorem compareSetK_claimable (st : Store) (k d : String)
    (h : st.data k = none ∨ st.data k = some d) :
    (st.compareSetK k "" d).2 = d := by
  unfold Store.compareSetK
  rcases h with h | h
  · rw [h]
    show (if ("" : String) = "" then (st.setK k d, d) else (st, "")).2 = d
    rw [if_pos rfl]
  · rw [h]
    show (if d = "" then (st.setK k d, d) else (st, d)).2 = d
    by_cases hd : d = "" <;> simp [hd]

/-- Every run of `collectCurrentNames` opens with the compare-and-set on the
own id key with empty expected value, and performs no other CAS. -/
theorem collectCurrentNames_trace_cas (st : Store) (selfId : WorkerId) (selfName : String) :
    (collectCurrentNames st selfId selfName).1.filter isCompareSetOp
      = [.compareSetOp (workerKey selfId) "" selfName]
    ∧ (collectCurrentNames st selfId selfName).1.head?
      = some (.compareSetOp (workerKey selfId) "" selfName) := by
  constructor <;>
  · simp only [collectCurrentNames]
    split
    · split
      · split
        · simp [isCompareSetOp]
        · split <;> simp [isCompareSetOp]
      · simp [isCompareSetOp]
    · simp [isCompareSetOp]

/-- C4: in the dynamic registry, claiming an id whose key is already bound
to a different (non-empty, i.e. actually claimed) name fails with an
`idCollision` error naming the existing occupant, and the claim is a single
atomic compare-and-set from the absent (empty) value to `selfName` — the
first operation of the call, and the only CAS it ever issues. -/
theorem collectCurrentNames_id_collision (st : Store) (selfId : WorkerId)
    (selfName occ : String) (hocc : st.data (workerKey selfId) = some occ)
    (hocc_ne : occ ≠ "") (hne : occ ≠ selfName) :
    (collectCurrentNames st selfId selfName).2 = .error (.idCollision selfId occ selfName)
    ∧ (∀ (st2 : Store) (id2 : WorkerId) (name2 : String),
        (collectCurrentNames st2 id2 name2).1.filter isCompareSetOp
          = [.compareSetOp (workerKey id2) "" name2]
        ∧ (collectCurrentNames st2 id2 name2).1.head?
          = some (.compareSetOp (workerKey id2) "" name2)) := by
  constructor
  · simp only [collectCurrentNames,
      compareSetK_occupied st (workerKey selfId) selfName occ hocc hocc_ne]
    simp [hne]
  · intro st2 id2 name2
    exact collectCurrentNames_trace_cas st2 id2 name2

/-- Witness for C4: worker 0 is already registered as "a"; a second claimant
of id 0 under name "x" collides. -/
theorem collectCurrentNames_id_collision_witness :
    (collectCurrentNames dynamicStore 0 "x").2 = .error (.idCollision 0 "a" "x")
    ∧ (∀ (st2 : Store) (id2 : WorkerId) (name2 : String),
        (collectCurrentNames st2 id2 name2).1.filter isCompareSetOp
          = [.compareSetOp (workerKey id2) "" name2]
        ∧ (collectCurrentNames st2 id2 name2).1.head?
          = some (.compareSetOp (workerKey id2) "" name2)) :=
  collectCurrentNames_id_collision dynamicStore 0 "x" "a" (by rfl) (by decide) (by decide)

/-- C10: the dynamic registry raises `idCollision` exactly when the value
stored at the id key after the compare-and-set differs from `selfName`; when
the key was absent or already held exactly `selfName`, no `idCollision` is
raised and the call immediately re-publishes `selfName` under the id key
(the unconditional `set` right after the CAS). -/
theorem collectCurrentNames_cas_semantics (st : Store) (selfId : WorkerId)
    (selfName : String) :
    ((∃ occ rej, (collectCurrentNames st selfId selfName).2
        = .error (.idCollision selfId occ rej))
      ↔ (st.compareSetK (workerKey selfId) "" selfName).2 ≠ selfName)
    ∧ ((st.data (workerKey selfId) = none ∨ st.data (workerKey selfId) = some selfName) →
        (collectCurrentNames st selfId selfName).1.take 2
          = [.compareSetOp (workerKey selfId) "" selfName,
             .setOp (workerKey selfId) selfName]) := by
  constructor
  · constructor
    · rintro ⟨occ, rej, hres⟩ hcs
      revert hres
      simp only [collectCurrentNames, if_pos hcs]
      split
      · split
        · intro hres
          cases hres
        · intro hres
          split at hres
          · rename_i e2 hloop
            cases hres
            exact collectCurrentLoop_no_idcol _ _ _ hloop selfId occ rej rfl
          · cases hres
      · intro hres
        cases hres
    · intro hcs
      refine ⟨(st.compareSetK (workerKey selfId) "" selfName).2, selfName, ?_⟩
      simp only [collectCurrentNames, if_neg hcs]
  · intro h
    have hcs : (st.compareSetK (workerKey selfId) "" selfName).2 = selfName :=
      compareSetK_claimable st (workerKey selfId) selfName h
    simp only [collectCurrentNames, if_pos hcs]
    split
    · split
      · rfl
      · split <;> rfl
    · rfl

/-- Witness for C10: a fresh claim of id 2 under name "c". -/
theorem collectCurrentNames_cas_semantics_witness :
    ((∃ occ rej, (collectCurrentNames dynamicStore 2 "c").2
        = .error (.idCollision 2 occ rej))
      ↔ (dynamicStore.compareSetK (workerKey 2) "" "c").2 ≠ "c")
    ∧ ((dynamicStore.data (workerKey 2) = none ∨
        dynamicStore.data (workerKey 2) = some "c") →
        (collectCurrentNames dynamicStore 2 "c").1.take 2
          = [.compareSetOp (workerKey 2) "" "c", .setOp (workerKey 2) "c"]) :=
  collectCurrentNames_cas_semantics dynamicStore 2 "c"

/-- C5: every table returned by either registry variant contains the
caller's own (name, id) pair, has pairwise-distinct names, and has
pairwise-distinct ids.  For the fixed-size variant this is unconditional.
For the dynamic variant the id-distinctness rests on the protocol invariant
that the manifest's records carry pairwise-distinct claimed ids, none equal
to the caller's (each one was claimed through the CAS of step 1); names are
checked by the code itself. -/
theorem registry_table_invariants :
    (∀ (st : Store) (selfId : WorkerId) (selfName : String) (W : Nat) (t : NameTable),
      (collectNames st selfId selfName W).2 = .ok t →
      (selfName, selfId) ∈ t ∧ (t.map Prod.fst).Nodup ∧ (t.map Prod.snd).Nodup)
    ∧ (∀ (st : Store) (selfId : WorkerId) (selfName : String) (t : NameTable),
      (∀ m ps, st.data allWorkerInfosKey = some m → parseManifest m = .ok ps →
        (selfId :: ps.map (fun p => toWorkerId p.2)).Nodup) →
      (collectCurrentNames st selfId selfName).2 = .ok t →
      (selfName, selfId) ∈ t ∧ (t.map Prod.fst).Nodup ∧ (t.map Prod.snd).Nodup) := by
  constructor
  · intro st selfId selfName W t hok
    rw [collectNames_eq] at hok
    obtain ⟨ext, h1, h2, h3⟩ := collectNamesLoop_ok_shape _ selfId _ [(selfName, selfId)]
      t hok (by simp)
    refine ⟨?_, h3, ?_⟩
    · rw [h1]
      exact List.mem_append_left _ (List.mem_cons_self _ _)
    · rw [h1, List.map_append, List.nodup_append]
      refine ⟨by simp, ?_, ?_⟩
      · rw [h2]
        exact (range_map_ofNat_nodup W).filter _
      · intro x hx hx2
        simp at hx
        rw [hx, h2] at hx2
        have := List.of_mem_filter hx2
        simp at this
  · intro st selfId selfName t hinv hok
    by_cases hcs : (st.compareSetK (workerKey selfId) "" selfName).2 = selfName
    · simp only [collectCurrentNames, hcs, if_true] at hok
      split at hok
      · split at hok
        · cases hok
        · rename_i m hget
          split at hok
          · cases hok
          · rename_i table hloop
            cases hok
            obtain ⟨ps, hps, ht, hnd⟩ := collectCurrentLoop_ok _ [(selfName, selfId)]
              t hloop (by simp)
            have hm : st.data allWorkerInfosKey = some m := by
              have hstep : ((st.compareSetK (workerKey selfId) "" selfName).1.setK
                  (workerKey selfId) selfName).data allWorkerInfosKey
                  = st.data allWorkerInfosKey := by
                rw [show ((st.compareSetK (workerKey selfId) "" selfName).1.setK
                    (workerKey selfId) selfName).data allWorkerInfosKey
                    = (st.compareSetK (workerKey selfId) "" selfName).1.data
                      allWorkerInfosKey from by
                  simp [Store.setK, allWorkerInfosKey_ne_workerKey selfId]]
                exact compareSetK_data_other st (workerKey selfId) "" selfName
                  allWorkerInfosKey (allWorkerInfosKey_ne_workerKey selfId)
              rw [← hstep]
              exact hget
            have hids := hinv m ps hm hps
            refine ⟨?_, hnd, ?_⟩
            · rw [ht]
              exact List.mem_append_left _ (List.mem_cons_self _ _)
            · rw [ht, List.map_append, List.map_map]
              show ((selfName, selfId) :: []).map Prod.snd
                ++ ps.map (fun p => toWorkerId p.2) |>.Nodup
              simpa using hids
      · cases hok
        exact ⟨List.mem_cons_self _ _, by simp, by simp⟩
    · simp only [collectCurrentNames, if_neg hcs] at hok
      cases hok

/-- Witness for C5: both variants evaluated on the example stores. -/
theorem registry_table_invariants_witness :
    (("a", (0 : Int)) ∈ exampleTable ∧ (exampleTable.map Prod.fst).Nodup
      ∧ (exampleTable.map Prod.snd).Nodup)
    ∧ (("c", (2 : Int)) ∈ dynamicTable ∧ (dynamicTable.map Prod.fst).Nodup
      ∧ (dynamicTable.map Prod.snd).Nodup) :=
  ⟨registry_table_invariants.1 exampleStore 0 "a" 3 exampleTable (by rfl),
   registry_table_invariants.2 dynamicStore 2 "c" dynamicTable
    (by
      intro m ps hm hps
      have hm2 : some "a-0,b-1" = some m := hm
      cases hm2
      have hps2 : Except.ok [("a", (0 : Int)), ("b", 1)] = Except.ok ps := hps
      cases hps2
      decide)
    (by rfl)⟩

theorem natToString_injective (a b : Nat) (h : natToString a = natToString b) : a = b :=
  natChars_injective a b (congrArg String.data h)

theorem processCountKey_head (e : Nat) : (processCountKey e).data.head? = some 'P' := by
  show ("PROCESS_COUNT" ++ "_ID_" ++ natToString e).data.head? = some 'P'
  rw [String.data_append, String.data_append]
  rfl

theorem activeCallCountKey_head (e : Nat) :
    (activeCallCountKey e).data.head? = some 'A' := by
  show ("ACTIVE_CALLS" ++ "_ID_" ++ natToString e).data.head? = some 'A'
  rw [String.data_append, String.data_append]
  rfl

theorem readyKey_head (e : Nat) : (readyKey e).data.head? = some 'R' := by
  show ("READY" ++ "_ID_" ++ natToString e).data.head? = some 'R'
  rw [String.data_append, String.data_append]
  rfl

theorem pck_ne_ack (e1 e2 : Nat) : processCountKey e1 ≠ activeCallCountKey e2 := by
  intro h
  have := processCountKey_head e1
  rw [h, activeCallCountKey_head e2] at this
  cases this

theorem pck_ne_rk (e1 e2 : Nat) : processCountKey e1 ≠ readyKey e2 := by
  intro h
  have := processCountKey_head e1
  rw [h, readyKey_head e2] at this
  cases this

theorem ack_ne_rk (e1 e2 : Nat) : activeCallCountKey e1 ≠ readyKey e2 := by
  intro h
  have := activeCallCountKey_head e1
  rw [h, readyKey_head e2] at this
  cases this

theorem suffix_key_injective (p : String) (e1 e2 : Nat)
    (h : p ++ storeKeyBarrierId ++ natToString e1 = p ++ storeKeyBarrierId ++ natToString e2) :
    e1 = e2 := by
  have hd := congrArg String.data h
  rw [String.data_append, String.data_append, String.data_append, String.data_append] at hd
  rw [List.append_assoc, List.append_assoc] at hd
  have h2 := List.append_cancel_left hd
  have h3 := List.append_cancel_left h2
  exact natToString_injective e1 e2 (String.ext h3)

theorem pck_injective (e1 e2 : Nat) (h : processCountKey e1 = processCountKey e2) :
    e1 = e2 :=
  suffix_key_injective storeKeyProcessCount e1 e2 h

theorem ack_injective (e1 e2 : Nat) (h : activeCallCountKey e1 = activeCallCountKey e2) :
    e1 = e2 :=
  suffix_key_injective storeKeyActiveCallCount e1 e2 h

theorem rk_injective (e1 e2 : Nat) (h : readyKey e1 = readyKey e2) : e1 = e2 :=
  suffix_key_injective storeKeyReady e1 e2 h

/-- C7: the epoch-key derivation is deterministic and collision-free: within
an epoch the three keys are pairwise distinct; the key triples of two
distinct epochs share no key at all; and `getNextKeyIds` returns exactly the
keys derived from the incremented epoch counter, so successive barrier
invocations never reuse a key. -/
theorem epoch_keys_collision_free :
    (∀ e : Nat, processCountKey e ≠ activeCallCountKey e
      ∧ processCountKey e ≠ readyKey e ∧ activeCallCountKey e ≠ readyKey e)
    ∧ (∀ e1 e2 : Nat, e1 ≠ e2 →
        ∀ k1 ∈ [processCountKey e1, activeCallCountKey e1, readyKey e1],
        ∀ k2 ∈ [processCountKey e2, activeCallCountKey e2, readyKey e2], k1 ≠ k2)
    ∧ (∀ b : Nat, getNextKeyIds b
        = (b + 1, processCountKey (b + 1), activeCallCountKey (b + 1), readyKey (b + 1))) := by
  refine ⟨fun e => ⟨pck_ne_ack e e, pck_ne_rk e e, ack_ne_rk e e⟩, ?_, fun b => rfl⟩
  intro e1 e2 hne k1 hk1 k2 hk2
  simp at hk1 hk2
  rcases hk1 with h1 | h1 | h1 <;> rcases hk2 with h2 | h2 | h2 <;> subst h1 <;> subst h2
  · exact fun hc => hne (pck_injective e1 e2 hc)
  · exact pck_ne_ack e1 e2
  · exact pck_ne_rk e1 e2
  · exact fun hc => (pck_ne_ack e2 e1) hc.symm
  · exact fun hc => hne (ack_injective e1 e2 hc)
  · exact ack_ne_rk e1 e2
  · exact fun hc => (pck_ne_rk e2 e1) hc.symm
  · exact fun hc => (ack_ne_rk e2 e1) hc.symm
  · exact fun hc => hne (rk_injective e1 e2 hc)

/-- Witness for C7 at epochs 1 and 2. -/
theorem epoch_keys_collision_free_witness :
    processCountKey 1 ≠ activeCallCountKey 1
    ∧ (∀ k1 ∈ [processCountKey 1, activeCallCountKey 1, readyKey 1],
        ∀ k2 ∈ [processCountKey 2, activeCallCountKey 2, readyKey 2], k1 ≠ k2)
    ∧ getNextKeyIds 0 = (1, processCountKey 1, activeCallCountKey 1, readyKey 1) :=
  ⟨(epoch_keys_collision_free.1 1).1,
   epoch_keys_collision_free.2.1 1 2 (by decide),
   epoch_keys_collision_free.2.2 0⟩

theorem addK_data_same (st : Store) (k : String) (d : Int) :
    (st.addK k d).1.data k = some (intToString (st.addK k d).2) := by
  simp [Store.addK, Store.setK]

theorem addK_data_other (st : Store) (k : String) (d : Int) (q : String) (h : q ≠ k) :
    (st.addK k d).1.data q = st.data q := by
  simp [Store.addK, Store.setK, h]

theorem setK_data_other (st : Store) (k v q : String) (h : q ≠ k) :
    (st.setK k v).data q = st.data q := by
  simp [Store.setK, h]

/-- Closed form of one `syncCallCount` call: the epoch counter advances by
one, the operations are the two adds, the conditional ready write, the wait,
and (when the wait completes) the re-read; the returned aggregate is the
total after the caller's own add of `activeCalls` (nothing else touched the
key in this single-caller run). -/
theorem syncCallCount_eq (st : Store) (b : Nat) (worldSize activeCalls : Int) :
    syncCallCount st b worldSize activeCalls
      = (b + 1,
         [.addOp (activeCallCountKey (b + 1)) activeCalls,
          .addOp (processCountKey (b + 1)) 1]
           ++ (if ((st.addK (activeCallCountKey (b + 1)) activeCalls).1.addK
                (processCountKey (b + 1)) 1).2 = worldSize
              then [.setOp (readyKey (b + 1)) ""] else [])
           ++ [.waitOp [readyKey (b + 1)]]
           ++ (if (((if ((st.addK (activeCallCountKey (b + 1)) activeCalls).1.addK
                  (processCountKey (b + 1)) 1).2 = worldSize
                then ((st.addK (activeCallCountKey (b + 1)) activeCalls).1.addK
                  (processCountKey (b + 1)) 1).1.setK (readyKey (b + 1)) ""
                else ((st.addK (activeCallCountKey (b + 1)) activeCalls).1.addK
                  (processCountKey (b + 1)) 1).1)).data (readyKey (b + 1))).isSome
              then [.getOp (activeCallCountKey (b + 1))] else []),
         if (((if ((st.addK (activeCallCountKey (b + 1)) activeCalls).1.addK
              (processCountKey (b + 1)) 1).2 = worldSize
            then ((st.addK (activeCallCountKey (b + 1)) activeCalls).1.addK
              (processCountKey (b + 1)) 1).1.setK (readyKey (b + 1)) ""
            else ((st.addK (activeCallCountKey (b + 1)) activeCalls).1.addK
              (processCountKey (b + 1)) 1).1)).data (readyKey (b + 1))).isSome
          then .ok (st.addK (activeCallCountKey (b + 1)) activeCalls).2
          else .error (.blocked (readyKey (b + 1)))) := by
  have hget : ∀ st2 : Store,
      st2.data (activeCallCountKey (b + 1))
        = some (intToString (st.addK (activeCallCountKey (b + 1)) activeCalls).2) →
      (match st2.getK (activeCallCountKey (b + 1)) with
        | none => (b + 1, ([] : List StoreOp), Except.error (RegError.blocked
            (activeCallCountKey (b + 1))))
        | some s =>
          match strToInt s with
          | none => (b + 1, ([] : List StoreOp), Except.error RegError.stoiFailure)
          | some v => (b + 1, ([] : List StoreOp), Except.ok v))
      = (b + 1, ([] : List StoreOp),
         Except.ok (st.addK (activeCallCountKey (b + 1)) activeCalls).2) := by
    intro st2 h2
    show (match st2.getK (activeCallCountKey (b + 1)) with
      | none => _ | some s => _) = _
    rw [show st2.getK (activeCallCountKey (b + 1))
        = some (intToString (st.addK (activeCallCountKey (b + 1)) activeCalls).2) from h2]
    show (match strToInt (intToString (st.addK (activeCallCountKey (b + 1)) activeCalls).2)
        with | none => _ | some v => _) = _
    rw [strToInt_intToString]
  unfold syncCallCount getNextKeyIds
  by_cases hlast : ((st.addK (activeCallCountKey (b + 1)) activeCalls).1.addK
      (processCountKey (b + 1)) 1).2 = worldSize
  · simp only [hlast, if_true]
    have hackd : (((st.addK (activeCallCountKey (b + 1)) activeCalls).1.addK
        (processCountKey (b + 1)) 1).1.setK (readyKey (b + 1)) "").data
          (activeCallCountKey (b + 1))
        = some (intToString (st.addK (activeCallCountKey (b + 1)) activeCalls).2) := by
      rw [setK_data_other _ _ _ _ (ack_ne_rk (b + 1) (b + 1)),
        addK_data_other _ _ _ _ (fun hc => pck_ne_ack (b + 1) (b + 1) hc.symm),
        addK_data_same]
    by_cases hrdy : ((((st.addK (activeCallCountKey (b + 1)) activeCalls).1.addK
        (processCountKey (b + 1)) 1).1.setK (readyKey (b + 1)) "").data
          (readyKey (b + 1))).isSome
    · simp only [hrdy, if_true]
      cases hg : (((st.addK (activeCallCountKey (b + 1)) activeCalls).1.addK
          (processCountKey (b + 1)) 1).1.setK (readyKey (b + 1)) "").getK
            (activeCallCountKey (b + 1)) with
      | none =>
        exfalso
        rw [show (((st.addK (activeCallCountKey (b + 1)) activeCalls).1.addK
            (processCountKey (b + 1)) 1).1.setK (readyKey (b + 1)) "").getK
              (activeCallCountKey (b + 1))
            = some (intToString (st.addK (activeCallCountKey (b + 1)) activeCalls).2)
          from hackd] at hg
        cases hg
      | some s =>
        have hs : s = intToString (st.addK (activeCallCountKey (b + 1)) activeCalls).2 := by
          have := hackd
          rw [show (((st.addK (activeCallCountKey (b + 1)) activeCalls).1.addK
              (processCountKey (b + 1)) 1).1.setK (readyKey (b + 1)) "").data
                (activeCallCountKey (b + 1))
              = some s from hg] at this
          cases this
          rfl
        simp only [hg, hs, strToInt_intToString]
        simp
    · simp only [hrdy, if_false]
      simp
  · simp only [hlast, if_false]
    have hackd : (((st.addK (activeCallCountKey (b + 1)) activeCalls).1.addK
        (processCountKey (b + 1)) 1).1).data (activeCallCountKey (b + 1))
        = some (intToString (st.addK (activeCallCountKey (b + 1)) activeCalls).2) := by
      rw [addK_data_other _ _ _ _ (fun hc => pck_ne_ack (b + 1) (b + 1) hc.symm),
        addK_data_same]
    by_cases hrdy : ((((st.addK (activeCallCountKey (b + 1)) activeCalls).1.addK
        (processCountKey (b + 1)) 1).1).data (readyKey (b + 1))).isSome
    · simp only [hrdy, if_true]
      cases hg : (((st.addK (activeCallCountKey (b + 1)) activeCalls).1.addK
          (processCountKey (b + 1)) 1).1).getK (activeCallCountKey (b + 1)) with
      | none =>
        exfalso
        rw [show (((st.addK (activeCallCountKey (b + 1)) activeCalls).1.addK
            (processCountKey (b + 1)) 1).1).getK (activeCallCountKey (b + 1))
            = some (intToString (st.addK (activeCallCountKey (b + 1)) activeCalls).2)
          from hackd] at hg
        cases hg
      | some s =>
        have hs : s = intToString (st.addK (activeCallCountKey (b + 1)) activeCalls).2 := by
          have := hackd
          rw [show (((st.addK (activeCallCountKey (b + 1)) activeCalls).1.addK
              (processCountKey (b + 1)) 1).1).data (activeCallCountKey (b + 1))
              = some s from hg] at this
          cases this
          rfl
        simp only [hg, hs, strToInt_intToString]
        simp
    · simp only [hrdy, if_false]
      simp

theorem ite_ok_elim {c : Prop} [Decidable c] {A v : Int} {e : RegError}
    (h : (if c then (Except.ok A : Except RegError Int) else Except.error e)
      = Except.ok v) : v = A := by
  by_cases hc : c
  · rw [if_pos hc] at h
    cases h
    rfl
  · rw [if_neg hc] at h
    cases h

/-- C6: each `syncCallCount` call increments the process-local epoch counter
by one and derives that epoch's keys; it adds `activeCalls` to the
active-call-count key and then adds 1 to the process-count key (its first
two operations, in that order); it writes the empty ready marker exactly
when its own process-count increment returned `worldSize`; it always waits
on the ready key; and a completed call returns the value re-read from the
active-call-count key (in this single-caller run, the total after its own
add). -/
theorem syncCallCount_protocol (st : Store) (b : Nat) (worldSize activeCalls : Int) :
    (syncCallCount st b worldSize activeCalls).1 = b + 1
    ∧ (syncCallCount st b worldSize activeCalls).2.1.take 2
        = [.addOp (activeCallCountKey (b + 1)) activeCalls,
           .addOp (processCountKey (b + 1)) 1]
    ∧ (.setOp (readyKey (b + 1)) "" ∈ (syncCallCount st b worldSize activeCalls).2.1
        ↔ ((st.addK (activeCallCountKey (b + 1)) activeCalls).1.addK
            (processCountKey (b + 1)) 1).2 = worldSize)
    ∧ .waitOp [readyKey (b + 1)] ∈ (syncCallCount st b worldSize activeCalls).2.1
    ∧ (∀ v, (syncCallCount st b worldSize activeCalls).2.2 = .ok v →
        v = (st.addK (activeCallCountKey (b + 1)) activeCalls).2) := by
  rw [syncCallCount_eq]
  refine ⟨rfl, rfl, ?_, ?_, ?_⟩
  · by_cases hlast : ((st.addK (activeCallCountKey (b + 1)) activeCalls).1.addK
        (processCountKey (b + 1)) 1).2 = worldSize
    · simp [hlast]
    · simp only [hlast, if_false, iff_false]
      by_cases hrdy : ((((st.addK (activeCallCountKey (b + 1)) activeCalls).1.addK
          (processCountKey (b + 1)) 1).1).data (readyKey (b + 1))).isSome <;>
        simp [hlast, hrdy]
  · by_cases hlast : ((st.addK (activeCallCountKey (b + 1)) activeCalls).1.addK
        (processCountKey (b + 1)) 1).2 = worldSize <;> simp [hlast]
  · intro v hv
    exact ite_ok_elim hv

/-- Witness for C6: a solo caller (`worldSize = 1`) contributing 5 calls on
a fresh store. -/
theorem syncCallCount_protocol_witness :
    (syncCallCount emptyStore 0 1 5).1 = 0 + 1
    ∧ (syncCallCount emptyStore 0 1 5).2.1.take 2
        = [.addOp (activeCallCountKey (0 + 1)) 5, .addOp (processCountKey (0 + 1)) 1]
    ∧ (.setOp (readyKey (0 + 1)) "" ∈ (syncCallCount emptyStore 0 1 5).2.1
        ↔ ((emptyStore.addK (activeCallCountKey (0 + 1)) 5).1.addK
            (processCountKey (0 + 1)) 1).2 = 1)
    ∧ .waitOp [readyKey (0 + 1)] ∈ (syncCallCount emptyStore 0 1 5).2.1
    ∧ (∀ v, (syncCallCount emptyStore 0 1 5).2.2 = .ok v →
        v = (emptyStore.addK (activeCallCountKey (0 + 1)) 5).2) :=
  syncCallCount_protocol emptyStore 0 1 5

theorem filter_update_congr {N : Nat} (ws : Fin N → WStatus) (i : Fin N) (v : WStatus)
    (p : WStatus → Bool) (hp : p v = p (ws i)) :
    Finset.univ.filter (fun j => p (Function.update ws i v j) = true)
      = Finset.univ.filter (fun j => p (ws j) = true) := by
  ext j
  simp only [Finset.mem_filter, Finset.mem_univ, true_and]
  by_cases hj : j = i
  · subst hj
    rw [Function.update_same, hp]
  · rw [Function.update_noteq hj]

theorem filter_update_insert {N : Nat} (ws : Fin N → WStatus) (i : Fin N) (v : WStatus)
    (p : WStatus → Bool) (hv : p v = true) (hw : p (ws i) = false) :
    Finset.univ.filter (fun j => p (Function.update ws i v j) = true)
      = insert i (Finset.univ.filter (fun j => p (ws j) = true)) := by
  ext j
  simp only [Finset.mem_filter, Finset.mem_univ, true_and, Finset.mem_insert]
  by_cases hj : j = i
  · subst hj
    rw [Function.update_same, hv]
    simp
  · rw [Function.update_noteq hj]
    simp [hj]

theorem not_mem_filter_of_false {N : Nat} (ws : Fin N → WStatus) (i : Fin N)
    (p : WStatus → Bool) (hw : p (ws i) = false) :
    i ∉ Finset.univ.filter (fun j => p (ws j) = true) := by
  simp [Finset.mem_filter, hw]

theorem BInv_init (N e : Nat) (calls : Fin N → Int) (c : BarrierConfig N)
    (h : BInit N e c) : BInv N e calls c := by
  obtain ⟨hws, hack, hpck, hrdy⟩ := h
  have hadded : addedSet N c = ∅ := by
    unfold addedSet
    apply Finset.filter_false_of_mem
    intro i _
    rw [hws i]
    simp [startedB]
  have hcounted : countedSet N c = ∅ := by
    unfold countedSet
    apply Finset.filter_false_of_mem
    intro i _
    rw [hws i]
    simp [arrived]
  refine ⟨?_, ?_, ?_, ?_, ?_, ?_, ?_⟩
  · rw [hadded, if_pos rfl, hack]
  · rw [hcounted, if_pos rfl, hpck]
  · intro i t hit
    rw [hws i] at hit
    cases hit
  · intro hsome
    rw [hrdy] at hsome
    cases hsome
  · intro i hi
    rw [hws i] at hi
    cases hi
  · intro i r hi
    rw [hws i] at hi
    cases hi
  · intro i r hi
    rw [hws i] at hi
    cases hi

theorem addK_total_some (st : Store) (k : String) (d cur : Int)
    (h : st.data k = some (intToString cur)) : (st.addK k d).2 = cur + d := by
  simp [Store.addK, h, strToInt_intToString]

theorem addK_total_none (st : Store) (k : String) (d : Int)
    (h : st.data k = none) : (st.addK k d).2 = d := by
  simp [Store.addK, h]

theorem BInv_step (N e : Nat) (calls : Fin N → Int) (c c2 : BarrierConfig N)
    (inv : BInv N e calls c) (hstep : BStep N e calls c c2) : BInv N e calls c2 := by
  cases hstep with
  | addCalls i h =>
    have haddset : addedSet N ⟨(c.store.addK (activeCallCountKey e) (calls i)).1,
        Function.update c.ws i .wAdded⟩ = insert i (addedSet N c) :=
      filter_update_insert c.ws i .wAdded startedB rfl (by rw [h]; rfl)
    have hnot : i ∉ addedSet N c :=
      not_mem_filter_of_false c.ws i startedB (by rw [h]; rfl)
    have hcntset : countedSet N ⟨(c.store.addK (activeCallCountKey e) (calls i)).1,
        Function.update c.ws i .wAdded⟩ = countedSet N c :=
      filter_update_congr c.ws i .wAdded arrived (by rw [h]; rfl)
    have hrdval : (c.store.addK (activeCallCountKey e) (calls i)).1.data (readyKey e)
        = c.store.data (readyKey e) :=
      addK_data_other _ _ _ _ (fun hc => ack_ne_rk e e hc.symm)
    have hpckval : (c.store.addK (activeCallCountKey e) (calls i)).1.data (processCountKey e)
        = c.store.data (processCountKey e) :=
      addK_data_other _ _ _ _ (pck_ne_ack e e)
    have htot : (c.store.addK (activeCallCountKey e) (calls i)).2
        = ∑ j ∈ insert i (addedSet N c), calls j := by
      by_cases hemp : addedSet N c = ∅
      · rw [addK_total_none _ _ _ (by rw [inv.ack, if_pos hemp]), hemp]
        simp
      · rw [addK_total_some _ _ _ _ (by rw [inv.ack, if_neg hemp]),
          Finset.sum_insert hnot]
        exact add_comm _ _
    refine ⟨?_, ?_, ?_, ?_, ?_, ?_, ?_⟩
    · show (c.store.addK (activeCallCountKey e) (calls i)).1.data (activeCallCountKey e) = _
      rw [addK_data_same, haddset, if_neg (Finset.insert_ne_empty _ _), htot]
    · show (c.store.addK (activeCallCountKey e) (calls i)).1.data (processCountKey e) = _
      rw [hpckval, hcntset, inv.pck]
    · intro j t hj
      have hji : j ≠ i := by
        intro hc
        subst hc
        simp only [Function.update_same] at hj
        cases hj
      simp only [Function.update_noteq hji] at hj
      rw [hcntset]
      exact inv.counted_le j t hj
    · intro hsome
      rw [hrdval] at hsome
      rw [hcntset]
      exact inv.ready_all hsome
    · intro j hj
      have hji : j ≠ i := by
        intro hc
        subst hc
        simp only [Function.update_same] at hj
        cases hj
      simp only [Function.update_noteq hji] at hj
      rw [hrdval]
      exact inv.passed_ready j hj
    · intro j r hj
      have hji : j ≠ i := by
        intro hc
        subst hc
        simp only [Function.update_same] at hj
        cases hj
      simp only [Function.update_noteq hji] at hj
      exact inv.done_val j r hj
    · intro j r hj
      have hji : j ≠ i := by
        intro hc
        subst hc
        simp only [Function.update_same] at hj
        cases hj
      simp only [Function.update_noteq hji] at hj
      rw [hrdval]
      exact inv.done_ready j r hj
  | addProc i h =>
    have haddset : addedSet N ⟨(c.store.addK (processCountKey e) 1).1,
        Function.update c.ws i (.wCounted (c.store.addK (processCountKey e) 1).2)⟩
        = addedSet N c :=
      filter_update_congr c.ws i _ startedB (by rw [h]; rfl)
    have hnot : i ∉ countedSet N c :=
      not_mem_filter_of_false c.ws i arrived (by rw [h]; rfl)
    have hcntset : countedSet N ⟨(c.store.addK (processCountKey e) 1).1,
        Function.update c.ws i (.wCounted (c.store.addK (processCountKey e) 1).2)⟩
        = insert i (countedSet N c) :=
      filter_update_insert c.ws i _ arrived rfl (by rw [h]; rfl)
    have hrdval : (c.store.addK (processCountKey e) 1).1.data (readyKey e)
        = c.store.data (readyKey e) :=
      addK_data_other _ _ _ _ (fun hc => pck_ne_rk e e hc.symm)
    have hackval : (c.store.addK (processCountKey e) 1).1.data (activeCallCountKey e)
        = c.store.data (activeCallCountKey e) :=
      addK_data_other _ _ _ _ (fun hc => pck_ne_ack e e hc.symm)
    have hcard : (insert i (countedSet N c)).card = (countedSet N c).card + 1 :=
      Finset.card_insert_of_not_mem hnot
    have htot : (c.store.addK (processCountKey e) 1).2
        = ((insert i (countedSet N c)).card : Int) := by
      by_cases hemp : countedSet N c = ∅
      · rw [addK_total_none _ _ _ (by rw [inv.pck, if_pos hemp]), hcard, hemp]
        simp
      · rw [addK_total_some _ _ _ _ (by rw [inv.pck, if_neg hemp]), hcard]
        push_cast
        ring
    refine ⟨?_, ?_, ?_, ?_, ?_, ?_, ?_⟩
    · show (c.store.addK (processCountKey e) 1).1.data (activeCallCountKey e) = _
      rw [hackval, haddset, inv.ack]
    · show (c.store.addK (processCountKey e) 1).1.data (processCountKey e) = _
      rw [addK_data_same, hcntset, if_neg (Finset.insert_ne_empty _ _), htot]
    · intro j t hj
      rw [hcntset, hcard]
      by_cases hji : j = i
      · subst hji
        simp only [Function.update_same] at hj
        cases hj
        rw [htot, hcard]
      · simp only [Function.update_noteq hji] at hj
        have := inv.counted_le j t hj
        push_cast
        omega
    · intro hsome
      rw [hrdval] at hsome
      rw [hcntset, inv.ready_all hsome]
      simp
    · intro j hj
      have hji : j ≠ i := by
        intro hc
        subst hc
        simp only [Function.update_same] at hj
        cases hj
      simp only [Function.update_noteq hji] at hj
      rw [hrdval]
      exact inv.passed_ready j hj
    · intro j r hj
      have hji : j ≠ i := by
        intro hc
        subst hc
        simp only [Function.update_same] at hj
        cases hj
      simp only [Function.update_noteq hji] at hj
      exact inv.done_val j r hj
    · intro j r hj
      have hji : j ≠ i := by
        intro hc
        subst hc
        simp only [Function.update_same] at hj
        cases hj
      simp only [Function.update_noteq hji] at hj
      rw [hrdval]
      exact inv.done_ready j r hj
  | setReady i t h ht =>
    have haddset : addedSet N ⟨c.store.setK (readyKey e) "",
        Function.update c.ws i .wWaiting⟩ = addedSet N c :=
      filter_update_congr c.ws i _ startedB (by rw [h]; rfl)
    have hcntset : countedSet N ⟨c.store.setK (readyKey e) "",
        Function.update c.ws i .wWaiting⟩ = countedSet N c :=
      filter_update_congr c.ws i _ arrived (by rw [h]; rfl)
    have hackval : (c.store.setK (readyKey e) "").data (activeCallCountKey e)
        = c.store.data (activeCallCountKey e) :=
      setK_data_other _ _ _ _ (ack_ne_rk e e)
    have hpckval : (c.store.setK (readyKey e) "").data (processCountKey e)
        = c.store.data (processCountKey e) :=
      setK_data_other _ _ _ _ (pck_ne_rk e e)
    have hctall : countedSet N c = Finset.univ := by
      have hle := inv.counted_le i t h
      have hcardle : (countedSet N c).card ≤ N := by
        have := Finset.card_le_univ (countedSet N c)
        simpa using this
      apply Finset.eq_univ_of_card
      rw [Fintype.card_fin]
      omega
    refine ⟨?_, ?_, ?_, ?_, ?_, ?_, ?_⟩
    · show (c.store.setK (readyKey e) "").data (activeCallCountKey e) = _
      rw [hackval, haddset, inv.ack]
    · show (c.store.setK (readyKey e) "").data (processCountKey e) = _
      rw [hpckval, hcntset, inv.pck]
    · intro j t2 hj
      have hji : j ≠ i := by
        intro hc
        subst hc
        simp only [Function.update_same] at hj
        cases hj
      simp only [Function.update_noteq hji] at hj
      rw [hcntset]
      exact inv.counted_le j t2 hj
    · intro _
      rw [hcntset]
      exact hctall
    · intro j hj
      show ((c.store.setK (readyKey e) "").data (readyKey e)).isSome = true
      have hset : (c.store.setK (readyKey e) "").data (readyKey e) = some "" := by
        simp [Store.setK]
      rw [hset]
      rfl
    · intro j r hj
      have hji : j ≠ i := by
        intro hc
        subst hc
        simp only [Function.update_same] at hj
        cases hj
      simp only [Function.update_noteq hji] at hj
      exact inv.done_val j r hj
    · intro j r hj
      show ((c.store.setK (readyKey e) "").data (readyKey e)).isSome = true
      have : (c.store.setK (readyKey e) "").data (readyKey e) = some "" := by
        simp [Store.setK]
      rw [this]
      rfl
  | skipReady i t h ht =>
    have haddset : addedSet N ⟨c.store, Function.update c.ws i .wWaiting⟩ = addedSet N c :=
      filter_update_congr c.ws i _ startedB (by rw [h]; rfl)
    have hcntset : countedSet N ⟨c.store, Function.update c.ws i .wWaiting⟩
        = countedSet N c :=
      filter_update_congr c.ws i _ arrived (by rw [h]; rfl)
    refine ⟨?_, ?_, ?_, ?_, ?_, ?_, ?_⟩
    · show c.store.data (activeCallCountKey e) = _
      rw [haddset, inv.ack]
    · show c.store.data (processCountKey e) = _
      rw [hcntset, inv.pck]
    · intro j t2 hj
      have hji : j ≠ i := by
        intro hc
        subst hc
        simp only [Function.update_same] at hj
        cases hj
      simp only [Function.update_noteq hji] at hj
      rw [hcntset]
      exact inv.counted_le j t2 hj
    · intro hsome
      rw [hcntset]
      exact inv.ready_all hsome
    · intro j hj
      have hji : j ≠ i := by
        intro hc
        subst hc
        simp only [Function.update_same] at hj
        cases hj
      simp only [Function.update_noteq hji] at hj
      exact inv.passed_ready j hj
    · intro j r hj
      have hji : j ≠ i := by
        intro hc
        subst hc
        simp only [Function.update_same] at hj
        cases hj
      simp only [Function.update_noteq hji] at hj
      exact inv.done_val j r hj
    · intro j r hj
      have hji : j ≠ i := by
        intro hc
        subst hc
        simp only [Function.update_same] at hj
        cases hj
      simp only [Function.update_noteq hji] at hj
      exact inv.done_ready j r hj
  | passWait i h hr =>
    have haddset : addedSet N ⟨c.store, Function.update c.ws i .wPassed⟩ = addedSet N c :=
      filter_update_congr c.ws i _ startedB (by rw [h]; rfl)
    have hcntset : countedSet N ⟨c.store, Function.update c.ws i .wPassed⟩
        = countedSet N c :=
      filter_update_congr c.ws i _ arrived (by rw [h]; rfl)
    refine ⟨?_, ?_, ?_, ?_, ?_, ?_, ?_⟩
    · show c.store.data (activeCallCountKey e) = _
      rw [haddset, inv.ack]
    · show c.store.data (processCountKey e) = _
      rw [hcntset, inv.pck]
    · intro j t2 hj
      have hji : j ≠ i := by
        intro hc
        subst hc
        simp only [Function.update_same] at hj
        cases hj
      simp only [Function.update_noteq hji] at hj
      rw [hcntset]
      exact inv.counted_le j t2 hj
    · intro hsome
      rw [hcntset]
      exact inv.ready_all hsome
    · intro j hj
      exact hr
    · intro j r hj
      have hji : j ≠ i := by
        intro hc
        subst hc
        simp only [Function.update_same] at hj
        cases hj
      simp only [Function.update_noteq hji] at hj
      exact inv.done_val j r hj
    · intro j r hj
      have hji : j ≠ i := by
        intro hc
        subst hc
        simp only [Function.update_same] at hj
        cases hj
      simp only [Function.update_noteq hji] at hj
      exact inv.done_ready j r hj
  | doGet i s v h hs hv =>
    have haddset : addedSet N ⟨c.store, Function.update c.ws i (.wDone v)⟩
        = addedSet N c :=
      filter_update_congr c.ws i _ startedB (by rw [h]; rfl)
    have hcntset : countedSet N ⟨c.store, Function.update c.ws i (.wDone v)⟩
        = countedSet N c :=
      filter_update_congr c.ws i _ arrived (by rw [h]; rfl)
    have hrdy := inv.passed_ready i h
    have hcall : countedSet N c = Finset.univ := inv.ready_all hrdy
    have haall : addedSet N c = Finset.univ := by
      apply Finset.eq_univ_iff_forall.mpr
      intro j
      have hj : j ∈ countedSet N c := by
        rw [hcall]
        exact Finset.mem_univ j
      unfold countedSet at hj
      unfold addedSet
      rw [Finset.mem_filter] at hj
      rw [Finset.mem_filter]
      refine ⟨Finset.mem_univ j, ?_⟩
      cases hws : c.ws j <;> rw [hws] at hj <;> first | rfl | (exact absurd hj.2 (by simp [arrived, hws]))
    have hvval : v = ∑ j : Fin N, calls j := by
      have hne : addedSet N c ≠ ∅ := by
        rw [haall]
        exact Finset.ne_empty_of_mem (Finset.mem_univ i)
      have hack := inv.ack
      rw [if_neg hne] at hack
      rw [hack] at hs
      cases hs
      rw [strToInt_intToString] at hv
      cases hv
      rw [haall]
    refine ⟨?_, ?_, ?_, ?_, ?_, ?_, ?_⟩
    · show c.store.data (activeCallCountKey e) = _
      rw [haddset, inv.ack]
    · show c.store.data (processCountKey e) = _
      rw [hcntset, inv.pck]
    · intro j t2 hj
      have hji : j ≠ i := by
        intro hc
        subst hc
        simp only [Function.update_same] at hj
        cases hj
      simp only [Function.update_noteq hji] at hj
      rw [hcntset]
      exact inv.counted_le j t2 hj
    · intro hsome
      rw [hcntset]
      exact inv.ready_all hsome
    · intro j hj
      have hji : j ≠ i := by
        intro hc
        subst hc
        simp only [Function.update_same] at hj
        cases hj
      simp only [Function.update_noteq hji] at hj
      exact inv.passed_ready j hj
    · intro j r hj
      by_cases hji : j = i
      · subst hji
        simp only [Function.update_same] at hj
        cases hj
        exact hvval
      · simp only [Function.update_noteq hji] at hj
        exact inv.done_val j r hj
    · intro j r hj
      exact hrdy

theorem BInv_reach (N e : Nat) (calls : Fin N → Int) (c0 c : BarrierConfig N)
    (h0 : BInit N e c0) (hr : Relation.ReflTransGen (BStep N e calls) c0 c) :
    BInv N e calls c := by
  induction hr with
  | refl => exact BInv_init N e calls c0 h0
  | tail hab hbc ih => exact BInv_step N e calls _ _ ih hbc

/-- C1: in every interleaved run of `syncCallCount` by exactly `N` workers
on one matching epoch, a worker that returns got the sum of all `N` workers'
`activeCalls` contributions — and no worker can return before every one of
the `N` workers has called the epoch (completed its adds). -/
theorem barrier_returns_sum (N e : Nat) (calls : Fin N → Int)
    (c0 c : BarrierConfig N) (h0 : BInit N e c0)
    (hr : Relation.ReflTransGen (BStep N e calls) c0 c) :
    ∀ (i : Fin N) (r : Int), c.ws i = .wDone r →
      r = (∑ j : Fin N, calls j) ∧ ∀ j : Fin N, arrived (c.ws j) = true := by
  intro i r hdone
  have inv := BInv_reach N e calls c0 c h0 hr
  refine ⟨inv.done_val i r hdone, ?_⟩
  intro j
  have hall := inv.ready_all (inv.done_ready i r hdone)
  have hj : j ∈ countedSet N c := by
    rw [hall]
    exact Finset.mem_univ j
  unfold countedSet at hj
  rw [Finset.mem_filter] at hj
  exact hj.2

theorem wit_reach : Relation.ReflTransGen (BStep 1 1 witCalls) witC0 witC5b := by
  have s1 : BStep 1 1 witCalls witC0 witC1b :=
    BStep.addCalls witC0 0 (by decide)
  have s2 : BStep 1 1 witCalls witC1b witC2b :=
    BStep.addProc witC1b 0 (by decide)
  have s3 : BStep 1 1 witCalls witC2b witC3b :=
    BStep.setReady witC2b 0 1 (by decide) (by decide)
  have s4 : BStep 1 1 witCalls witC3b witC4b :=
    BStep.passWait witC3b 0 (by decide) (by decide)
  have s5 : BStep 1 1 witCalls witC4b witC5b :=
    BStep.doGet witC4b 0 (intToString 7) 7 (by decide) (by decide) (by decide)
  exact .tail (.tail (.tail (.tail (.tail .refl s1) s2) s3) s4) s5

/-- Witness for C1: the lone worker returns 7 = its own contribution, and
everyone (itself) has arrived. -/
theorem barrier_returns_sum_witness :
    ((7 : Int) = ∑ j : Fin 1, witCalls j) ∧ ∀ j : Fin 1, arrived (witC5b.ws j) = true :=
  barrier_returns_sum 1 1 witCalls witC0 witC5b
    ⟨fun i => rfl, rfl, rfl, rfl⟩ wit_reach 0 7 (by decide)

end AgentUtils
